import Mathlib

/-!
# WolfMind log viewer: the transcript parser of `frontend/script.js`

A shallow embedding of `parseLogContent` and `getLastActions`.

* JavaScript strings are modelled as lists of Unicode scalar values (`Str`).  The text comes
  from `response.text()`, i.e. from a UTF-8 decode, so it never holds a lone surrogate; every
  regular expression of the source starts and ends its groups next to characters of the Basic
  Multilingual Plane, so matching on scalar values and matching on UTF-16 units agree.
* JavaScript objects that are reached through more than one variable (`currentAction`,
  `currentPhase`) live in explicit heaps, and a reference is an index into the heap.
* An expression that would throw a `TypeError` (indexing into `undefined` or `null`) yields
  `none`.
-/

namespace WolfMind

abbrev Str := List Char

/-! ## String primitives of the JavaScript runtime -/

/-- Model of `s.startsWith(pat)`. -/
def startsWith (s pat : Str) : Bool := pat.isPrefixOf s

/-- Model of `s.includes(pat)`. -/
def includes : Str → Str → Bool
  | [], pat => pat.isEmpty
  | c :: cs, pat => pat.isPrefixOf (c :: cs) || includes cs pat

/-- Worker of `jsSplit`: the second argument counts the characters of a separator that has
just been recognised and is still to be skipped. -/
def splitGo (sep : Str) : Str → Nat → List Str
  | [], _ => [[]]
  | _ :: cs, skip + 1 => splitGo sep cs skip
  | c :: cs, 0 =>
    if sep.isPrefixOf (c :: cs) then [] :: splitGo sep cs (sep.length - 1)
    else match splitGo sep cs 0 with
      | [] => [[c]]
      | p :: ps => (c :: p) :: ps

/-- Model of `s.split(sep)` for a non-empty separator (every call site passes one). -/
def jsSplit (s sep : Str) : List Str := splitGo sep s 0

/-- The code points of ECMAScript `WhiteSpace` and `LineTerminator`, which `trim` strips. -/
def isWhiteSpace (c : Char) : Bool :=
  let n := c.toNat
  n == 0x9 || n == 0xA || n == 0xB || n == 0xC || n == 0xD || n == 0x20 || n == 0xA0 ||
  n == 0x1680 || (0x2000 ≤ n && n ≤ 0x200A) || n == 0x2028 || n == 0x2029 || n == 0x202F ||
  n == 0x205F || n == 0x3000 || n == 0xFEFF

/-- Model of `s.trim()`. -/
def trim (s : Str) : Str := ((s.dropWhile isWhiteSpace).reverse.dropWhile isWhiteSpace).reverse

/-- Model of `s.substring(n)`. -/
def substring (s : Str) (n : Nat) : Str := s.drop n

/-- The regular-expression class `\d`. -/
def isDigit (c : Char) : Bool := 48 ≤ c.toNat && c.toNat ≤ 57

/-- The regular-expression class `\w`. -/
def isWord (c : Char) : Bool :=
  let n := c.toNat
  (48 ≤ n && n ≤ 57) || (65 ≤ n && n ≤ 90) || (97 ≤ n && n ≤ 122) || n == 95

/-- The regular-expression atom `.` (no `s` flag): anything but a line terminator. -/
def isDot (c : Char) : Bool :=
  let n := c.toNat
  !(n == 0xA || n == 0xD || n == 0x2028 || n == 0x2029)

/-- An unanchored regular expression is tried at every start position, leftmost first. -/
def firstMatch {α : Type} (f : Str → Option α) : Str → Option α
  | [] => f []
  | c :: cs => match f (c :: cs) with
    | some r => some r
    | none => firstMatch f cs

/-- A JavaScript number as `parseInt` yields it on a run of decimal digits: a double that
holds a non-negative integer, or `Infinity`. -/
inductive JsNumber where
  | int (n : Nat)
  | infinity
  deriving DecidableEq, Repr

/-- The number of low bits of `n` beyond the 53 that the significand of a double holds (the
first argument bounds the recursion). -/
def roundShift : Nat → Nat → Nat
  | 0, _ => 0
  | fuel + 1, n => if n < 2 ^ 53 then 0 else roundShift fuel (n / 2) + 1

/-- The first power of two past the finite doubles, `2^1024`. -/
def doubleLimit : Nat := 2 ^ 256 * 2 ^ 256 * 2 ^ 256 * 2 ^ 256

/-- The number value of a non-negative integer: the nearest double, ties to the even
significand, and `Infinity` when the rounded value leaves the finite range. -/
def toNumber (n : Nat) : JsNumber :=
  let e := roundShift n n
  let q := n / 2 ^ e
  let r := n % 2 ^ e
  let q2 := if 2 ^ e < 2 * r || (2 * r == 2 ^ e && q % 2 == 1) then q + 1 else q
  if q2 * 2 ^ e < doubleLimit then .int (q2 * 2 ^ e) else .infinity

/-- The integer that a run of decimal digits denotes. -/
def digitsValue (s : Str) : Nat := s.foldl (fun n c => 10 * n + (c.toNat - 48)) 0

/-- Model of `parseInt(s)` on a run of decimal digits (the only argument it receives here):
the number value of the integer the digits denote, as ECMAScript defines it, every digit
taken as written (past the twentieth significant digit the standard lets an implementation
read a digit as 0; up to `2^53` no such choice arises). -/
def parseInt (s : Str) : JsNumber := toNumber (digitsValue s)

/-! ## Regular expressions of `parseLogContent` -/

/-- The expression `- (Player\d+): (\w+)` tried at one start position.  Both quantifiers are
greedy and each is followed by something its class excludes (or by nothing), so the longest
run is the only candidate. -/
def playerAt (s : Str) : Option (Str × Str) :=
  if startsWith s "- Player".toList then
    let r := s.drop 8
    let ds := r.takeWhile isDigit
    let r2 := r.dropWhile isDigit
    if !ds.isEmpty && startsWith r2 ": ".toList then
      let w := (r2.drop 2).takeWhile isWord
      if !w.isEmpty then some ("Player".toList ++ ds, w) else none
    else none
  else none

/-- Model of `line.match(...)` with the expression `- (Player\d+): (\w+)`: groups 1 and 2. -/
def playerMatch (line : Str) : Option (Str × Str) := firstMatch playerAt line

/-- Model of `line.match(/^第 \d+ 回合$/)` as a test. -/
def roundTest (line : Str) : Bool :=
  startsWith line "第 ".toList &&
  !((line.drop 2).takeWhile isDigit).isEmpty &&
  (line.drop 2).dropWhile isDigit == " 回合".toList

/-- The expression `/\d+/` at one start position. -/
def digitsAt (s : Str) : Option Str :=
  let ds := s.takeWhile isDigit
  if ds.isEmpty then none else some ds

/-- Model of `line.match(/\d+/)`: the whole match (index 0), `none` for `null`. -/
def digitsMatch (line : Str) : Option Str := firstMatch digitsAt line

/-- The expression `\[(\d{2}:\d{2}:\d{2})\]` at one start position: group 1. -/
def timeAt (s : Str) : Option Str :=
  match s.take 10 with
  | [o, a, b, p, c, d, q, e, f, z] =>
    if o == '[' && isDigit a && isDigit b && p == ':' && isDigit c && isDigit d && q == ':' &&
        isDigit e && isDigit f && z == ']' then some [a, b, p, c, d, q, e, f]
    else none
  | _ => none

/-- Model of `line.match(/^\[\d{2}:\d{2}:\d{2}\]/)` as a test. -/
def timeTest (line : Str) : Bool := (timeAt line).isSome

/-- Model of `line.match(/\[(\d{2}:\d{2}:\d{2})\]/)`: group 1. -/
def timeMatch (line : Str) : Option Str := firstMatch timeAt line

/-- The part `(.+?) \| (.+)` of the action expression: the lazy group grows one character at a
time until ` | ` and at least one more character follow; the last group is greedy. -/
def actionTail : Str → Option (Str × Str)
  | [] => none
  | c :: cs =>
    if isDot c then
      if startsWith cs " | ".toList && !((cs.drop 3).takeWhile isDot).isEmpty then
        some ([c], (cs.drop 3).takeWhile isDot)
      else (actionTail cs).map (fun g => (c :: g.1, g.2))
    else none

/-- The expression `/\] (.+?) \| (.+)/` at one start position. -/
def actionAt (s : Str) : Option (Str × Str) :=
  if startsWith s "] ".toList then actionTail (s.drop 2) else none

/-- Model of `line.match(/\] (.+?) \| (.+)/)`: groups 1 and 2. -/
def actionMatch (line : Str) : Option (Str × Str) := firstMatch actionAt line

/-- Some `k ≥ 1` characters matched by `.` are followed by a text that `ok` accepts: the
backtracking of `.+` in front of the rest of an expression. -/
def dotPlusThen (ok : Str → Bool) : Str → Bool
  | [] => false
  | c :: cs => isDot c && (ok cs || dotPlusThen ok cs)

/-- Model of `line.match(/📊 .+投票结果/)` as a test. -/
def voteTest : Str → Bool
  | [] => false
  | c :: cs =>
    (startsWith (c :: cs) "📊 ".toList &&
      dotPlusThen (fun t => startsWith t "投票结果".toList) ((c :: cs).drop 2)) || voteTest cs

/-- The expression `/📊 (.+投票结果 .+)/` at one start position.  The last `.+` is greedy, so
the group runs to the end of the stretch of `.` characters. -/
def voteAt (s : Str) : Option Str :=
  if startsWith s "📊 ".toList &&
      dotPlusThen (fun t => startsWith t "投票结果 ".toList && !((t.drop 5).takeWhile isDot).isEmpty)
        (s.drop 2) then
    some ((s.drop 2).takeWhile isDot)
  else none

/-- Model of `line.match(/📊 (.+投票结果 .+)/)`: group 1. -/
def voteMatch (line : Str) : Option Str := firstMatch voteAt line

/-- Model of `line.match(/💀 (夜晚死亡|白天死亡)/)` as a test. -/
def deathTest (line : Str) : Bool :=
  includes line "💀 夜晚死亡".toList || includes line "💀 白天死亡".toList

/-- The expression `/💀 (夜晚死亡|白天死亡) (.+)/` at one start position: groups 1 and 2. -/
def deathAt (s : Str) : Option (Str × Str) :=
  if startsWith s "💀 夜晚死亡 ".toList || startsWith s "💀 白天死亡 ".toList then
    let g2 := (s.drop 7).takeWhile isDot
    if g2.isEmpty then none else some ((s.drop 2).take 4, g2)
  else none

/-- Model of `line.match(/💀 (夜晚死亡|白天死亡) (.+)/)`: groups 1 and 2. -/
def deathMatch (line : Str) : Option (Str × Str) := firstMatch deathAt line

/-- Model of `line.match(/📢 系统公告/)` as a test. -/
def systemTest (line : Str) : Bool := includes line "📢 系统公告".toList

/-- Model of `line.match(/^[【📢💀📊]/)` as a test.  Without the `u` flag the class holds `【`
and the UTF-16 halves of the three emoji; a well-formed line starts with one of them exactly
when its first character is `【` or has the high surrogate `D83D` (U+1F400 to U+1F7FF). -/
def symbolTest (line : Str) : Bool :=
  match line with
  | [] => false
  | c :: _ => c == '【' || (0x1F400 ≤ c.toNat && c.toNat ≤ 0x1F7FF)

/-! ## Data model -/

/-- The values of `currentLogState`. -/
inductive LogState where
  | thought | behavior | speech | details
  deriving DecidableEq, Repr

/-- An element of `gameData.players`. -/
structure Player where
  name : Str
  role : Str
  alive : Bool
  deriving DecidableEq, Repr

/-- A normal action object, as the action branch creates it. -/
structure Action where
  time : Str
  type : Str
  player : Str
  thought : Str
  behavior : Str
  speech : Str
  details : Str
  deriving DecidableEq, Repr

/-- The `type` of a phase: `night` or `day`. -/
inductive PhaseType where
  | night | day
  deriving DecidableEq, Repr

/-- The `type` of an event entry. -/
inductive EventType where
  | vote_result | death | system
  deriving DecidableEq, Repr

/-- An element of `phase.actions` during the scan: a reference to a normal action object of
the heap, or an event object (which no variable refers to afterwards). -/
inductive Entry where
  | action (ref : Nat)
  | event (type : EventType) (details : Str)
  deriving DecidableEq, Repr

/-- A phase object of the heap. -/
structure PhaseObj where
  type : PhaseType
  actions : List Entry
  deriving DecidableEq, Repr

/-- A round object; `phases` holds references to phase objects of the heap. -/
structure RoundObj where
  number : JsNumber
  phases : List Nat
  deriving DecidableEq, Repr

/-- The variables of `parseLogContent` together with the objects they reach. -/
structure State where
  gameId : Str
  startTime : Str
  endTime : Str
  status : Str
  players : List Player
  rounds : List RoundObj
  actionHeap : List Action
  phaseHeap : List PhaseObj
  currentRound : Option RoundObj
  currentPhase : Option Nat
  currentAction : Option Nat
  currentLogState : Option LogState
  deriving DecidableEq, Repr

/-- An element of `phase.actions` in the returned document. -/
inductive ActionV where
  | normal (a : Action)
  | event (type : EventType) (details : Str)
  deriving DecidableEq, Repr

/-- A phase of the returned document. -/
structure Phase where
  type : PhaseType
  actions : List ActionV
  deriving DecidableEq, Repr

/-- A round of the returned document. -/
structure Round where
  number : JsNumber
  phases : List Phase
  deriving DecidableEq, Repr

/-- The document `parseLogContent` returns. -/
structure GameLog where
  gameId : Str
  startTime : Str
  endTime : Str
  status : Str
  players : List Player
  rounds : List Round
  deriving DecidableEq, Repr

/-- Replace the object at index `i` of a heap by `f` of it. -/
def modifyAt {α : Type} (f : α → α) : List α → Nat → List α
  | [], _ => []
  | x :: xs, 0 => f x :: xs
  | x :: xs, i + 1 => x :: modifyAt f xs i

/-- Model of `if (currentPhase) currentPhase.actions.push(e)`. -/
def pushEntry (cp : Option Nat) (e : Entry) (heap : List PhaseObj) : List PhaseObj :=
  match cp with
  | none => heap
  | some p => modifyAt (fun o => { o with actions := o.actions ++ [e] }) heap p

/-- The state before the first line. -/
def initState : State :=
  { gameId := [], startTime := [], endTime := [], status := "进行中".toList, players := [],
    rounds := [], actionHeap := [], phaseHeap := [], currentRound := none, currentPhase := none,
    currentAction := none, currentLogState := none }

/-! ## The blocks of the line loop, in source order -/

/-- Block "解析游戏ID". -/
def parseGameId (line : Str) (st : State) : Option State :=
  if startsWith line "游戏ID:".toList then
    (jsSplit line ":".toList)[1]? |>.map fun x => { st with gameId := trim x }
  else some st

/-- Block "解析开始时间". -/
def parseStartTime (line : Str) (st : State) : Option State :=
  if startsWith line "开始时间:".toList then
    (jsSplit line "开始时间:".toList)[1]? |>.map fun x => { st with startTime := trim x }
  else some st

/-- Block "解析结束时间". -/
def parseEndTime (line : Str) (st : State) : Option State :=
  if startsWith line "游戏结束时间:".toList then
    (jsSplit line "游戏结束时间:".toList)[1]? |>.map fun x => { st with endTime := trim x }
  else some st

/-- Block "解析游戏结束状态". -/
def parseStatus (line : Str) (st : State) : Option State :=
  if includes line "游戏结束:".toList then
    (jsSplit line "游戏结束:".toList)[1]? |>.bind fun x =>
      (jsSplit x "。".toList)[0]? |>.map fun y => { st with status := trim y }
  else some st

/-- Block "解析玩家列表". -/
def parsePlayers (line : Str) (st : State) : State :=
  if startsWith line "- Player".toList then
    match playerMatch line with
    | some m => { st with players := st.players ++ [{ name := m.1, role := m.2, alive := true }] }
    | none => st
  else st

/-- Block "解析回合". -/
def parseRound (line : Str) (st : State) : Option State :=
  if roundTest line then
    let rounds := match st.currentRound with
      | some r => st.rounds ++ [r]
      | none => st.rounds
    (digitsMatch line).map fun ds =>
      { st with rounds := rounds, currentRound := some { number := parseInt ds, phases := [] },
                currentPhase := none }
  else some st

/-- The two branches of block "解析阶段" share this body. -/
def openPhase (t : PhaseType) (st : State) : State :=
  { st with phaseHeap := st.phaseHeap ++ [{ type := t, actions := [] }],
            currentPhase := some st.phaseHeap.length,
            currentRound := st.currentRound.map fun r =>
              { r with phases := r.phases ++ [st.phaseHeap.length] } }

/-- Block "解析阶段". -/
def parsePhase (line : Str) (st : State) : State :=
  if line == "【夜晚阶段】".toList then openPhase .night st
  else if line == "【白天阶段】".toList then openPhase .day st
  else st

/-- The object literal of block "解析动作". -/
def newAction (time type player : Str) : Action :=
  { time := time, type := type, player := player,
    thought := [], behavior := [], speech := [], details := [] }

/-- Block "解析动作". -/
def parseAction (line : Str) (st : State) : State :=
  if timeTest line then
    match timeMatch line, actionMatch line with
    | some t, some m =>
      { st with actionHeap := st.actionHeap ++ [newAction t m.1 m.2],
                currentAction := some st.actionHeap.length,
                phaseHeap := pushEntry st.currentPhase (.action st.actionHeap.length) st.phaseHeap }
    | _, _ => st
  else st

/-- The guard of the continuation branch, apart from `currentLogState && currentAction`. -/
def continuationLine (line : Str) : Bool :=
  !startsWith line "[".toList && !startsWith line "游戏ID:".toList &&
  !startsWith line "开始时间:".toList && !startsWith line "游戏结束".toList &&
  !startsWith line "- Player".toList && !roundTest line && !symbolTest line

/-- The three statements of the continuation branch: the line goes, after a line break, to
the field that `currentLogState` names; nothing happens for `details`. -/
def continueField (state : Option LogState) (line : Str) (o : Action) : Action :=
  match state with
  | some .thought => { o with thought := o.thought ++ '\n' :: line }
  | some .behavior => { o with behavior := o.behavior ++ '\n' :: line }
  | some .speech => { o with speech := o.speech ++ '\n' :: line }
  | _ => o

/-- The condition of the branch that fills `details`. -/
def keyword (line : Str) : Bool :=
  includes line "投票给".toList || includes line "查验".toList || includes line "使用".toList

/-- Block "解析心声、表现、发言". -/
def parseFields (line : Str) (st : State) : State :=
  match st.currentAction with
  | none => st
  | some a =>
    if startsWith line "(心声)".toList then
      { st with actionHeap := modifyAt (fun o => { o with thought := trim (substring line 4) })
                  st.actionHeap a,
                currentLogState := some .thought }
    else if startsWith line "(表现)".toList then
      { st with actionHeap := modifyAt (fun o => { o with behavior := trim (substring line 4) })
                  st.actionHeap a,
                currentLogState := some .behavior }
    else if startsWith line "(发言)".toList then
      { st with actionHeap := modifyAt (fun o => { o with speech := trim (substring line 4) })
                  st.actionHeap a,
                currentLogState := some .speech }
    else if keyword line then
      { st with actionHeap := modifyAt (fun o => { o with details := line }) st.actionHeap a,
                currentLogState := some .details }
    else if st.currentLogState.isSome && continuationLine line then
      { st with actionHeap := modifyAt (continueField st.currentLogState line) st.actionHeap a }
    else st

/-- Block "解析投票结果". -/
def parseVote (line : Str) (st : State) : State :=
  if voteTest line then
    match voteMatch line, st.currentPhase with
    | some d, some p =>
      { st with phaseHeap := pushEntry (some p) (.event .vote_result d) st.phaseHeap }
    | _, _ => st
  else st

/-- Model of `const player = players.find(p => p.name === playerName); if (player)
player.alive = false`: the first player of that name, if any, is marked dead. -/
def markDead : List Player → Str → List Player
  | [], _ => []
  | p :: ps, n => if p.name == n then { p with alive := false } :: ps else p :: markDead ps n

/-- Block "解析死亡公告". -/
def parseDeath (line : Str) (st : State) : State :=
  if deathTest line then
    match deathMatch line, st.currentPhase with
    | some m, some p =>
      { st with phaseHeap := pushEntry (some p) (.event .death (m.1 ++ ": ".toList ++ m.2))
                  st.phaseHeap,
                players := ((jsSplit m.2 ",".toList).map trim).foldl markDead st.players }
    | _, _ => st
  else st

/-- One pass of the loop body over a trimmed line, up to the system-announcement block. -/
def processLine (line : Str) (st : State) : Option State :=
  (parseGameId line st).bind fun s1 =>
  (parseStartTime line s1).bind fun s2 =>
  (parseEndTime line s2).bind fun s3 =>
  (parseStatus line s3).bind fun s4 =>
  (parseRound line (parsePlayers line s4)).map fun s5 =>
  parseDeath line (parseVote line (parseFields line (parseAction line (parsePhase line s5))))

/-- The `while` loop of block "解析系统公告" from `lines[i]` on: the announcement collected
and the lines left, the first of which (if any) is the one that stopped the loop. -/
def collectAnnouncement : List Str → Str → Str × List Str
  | [], acc => (acc, [])
  | l :: ls, acc =>
    if !includes l "[".toList && !(trim l).isEmpty then
      collectAnnouncement ls (acc ++ trim l ++ " ".toList)
    else (acc, l :: ls)

/-- Block "解析系统公告" after its `while` loop. -/
def pushSystem (announcement : Str) (st : State) : State :=
  { st with phaseHeap := pushEntry st.currentPhase (.event .system (trim announcement))
              st.phaseHeap }

/-- The `for` loop over the lines still to read, `lines[i]` first.  After an announcement the
loop increment steps over the line that stopped the `while` loop.  The first argument bounds
the number of iterations. -/
def mainLoop : Nat → List Str → State → Option State
  | 0, _, _ => none
  | _ + 1, [], st => some st
  | fuel + 1, raw :: rest, st =>
    (processLine (trim raw) st).bind fun st1 =>
      if systemTest (trim raw) then
        let r := collectAnnouncement rest []
        mainLoop fuel (r.2.drop 1) (pushSystem r.1 st1)
      else mainLoop fuel rest st1

/-- Read the entries of a phase out of the action heap. -/
def resolveEntries (heap : List Action) (es : List Entry) : List ActionV :=
  es.filterMap fun e =>
    match e with
    | .action ref => heap[ref]?.map .normal
    | .event t d => some (.event t d)

/-- Read a round out of the heaps. -/
def resolveRound (st : State) (r : RoundObj) : Round :=
  { number := r.number,
    phases := r.phases.filterMap fun p =>
      st.phaseHeap[p]?.map fun o => { type := o.type, actions := resolveEntries st.actionHeap o.actions } }

/-- The rounds of `gameData` once block "添加最后一个回合" has run. -/
def finalRounds (st : State) : List RoundObj :=
  match st.currentRound with
  | some r => st.rounds ++ [r]
  | none => st.rounds

/-- The returned `gameData`, read out of the heaps. -/
def toGameLog (st : State) : GameLog :=
  { gameId := st.gameId, startTime := st.startTime, endTime := st.endTime, status := st.status,
    players := st.players, rounds := (finalRounds st).map (resolveRound st) }

/-- The state when the `for` loop of `parseLogContent` has ended. -/
def scan (content : Str) : Option State :=
  let lines := jsSplit content "\n".toList
  mainLoop (lines.length + 1) lines initState

/-- Model of `parseLogContent(content)`; `none` stands for a thrown exception. -/
def parseLogContent (content : Str) : Option GameLog := (scan content).map toGameLog


/-! ## The latest-action projection -/

/-- The object `actionData` of `getLastActions`: a key is present exactly when its field of
the action is a non-empty string. -/
structure ActionData where
  thought : Option Str
  behavior : Option Str
  speech : Option Str
  deriving DecidableEq, Repr

/-- The three conditional assignments that fill `actionData`. -/
def actionData (a : Action) : ActionData :=
  { thought := if a.thought.isEmpty then none else some a.thought,
    behavior := if a.behavior.isEmpty then none else some a.behavior,
    speech := if a.speech.isEmpty then none else some a.speech }

/-- Model of `Object.keys(actionData).length`. -/
def ActionData.keys (d : ActionData) : Nat :=
  d.thought.toList.length + d.behavior.toList.length + d.speech.toList.length

/-- Assignment to an own property of an object, the own properties kept as an association
list: the value of an existing key is replaced, a new key is added at the end. -/
def setKey : List (Str × ActionData) → Str → ActionData → List (Str × ActionData)
  | [], k, v => [(k, v)]
  | e :: m, k, v => if e.1 == k then (k, v) :: m else e :: setKey m k v

/-- The value of an own property, `none` when the object has no such own property. -/
def lookup : List (Str × ActionData) → Str → Option ActionData
  | [], _ => none
  | e :: m, k => if e.1 == k then some e.2 else lookup m k

/-- The object `actions` of `getLastActions`, created by `{}`: its own properties, and its
prototype, which is `Object.prototype` (`none`) until a `__proto__` assignment replaces it
by an `actionData` object. -/
structure JsObject where
  own : List (Str × ActionData)
  proto : Option ActionData
  deriving DecidableEq, Repr

/-- What reading a property of `actions` can give. -/
inductive JsValue where
  | undefined
  | object (d : ActionData)
  | text (s : Str)
  | function (name : Str)
  | objectPrototype
  deriving DecidableEq, Repr

/-- The object literal `{}`. -/
def emptyObject : JsObject := { own := [], proto := none }

/-- The names of the data properties of `Object.prototype`, all of them functions. -/
def objectPrototypeNames : List Str :=
  ["constructor".toList, "__defineGetter__".toList, "__defineSetter__".toList,
   "hasOwnProperty".toList, "__lookupGetter__".toList, "__lookupSetter__".toList,
   "isPrototypeOf".toList, "propertyIsEnumerable".toList, "toString".toList,
   "valueOf".toList, "toLocaleString".toList]

/-- Model of `actions[k] = v` with `v` an object: the key `__proto__` reaches the setter
inherited from `Object.prototype`, which replaces the prototype and adds no own property;
every other key becomes or stays an own property. -/
def setProp (o : JsObject) (k : Str) (v : ActionData) : JsObject :=
  if k == "__proto__".toList then { o with proto := some v }
  else { o with own := setKey o.own k v }

/-- The own property `k` of an `actionData` object. -/
def dataField (d : ActionData) (k : Str) : Option Str :=
  if k == "thought".toList then d.thought
  else if k == "behavior".toList then d.behavior
  else if k == "speech".toList then d.speech
  else none

/-- Model of reading `actions[k]`: an own property first, then the prototype chain, where
`__proto__` is the getter of `Object.prototype` and gives the prototype of `actions`. -/
def getProp (o : JsObject) (k : Str) : JsValue :=
  match lookup o.own k with
  | some d => .object d
  | none =>
    if k == "__proto__".toList then
      match o.proto with
      | some d => .object d
      | none => .objectPrototype
    else
      match o.proto.bind fun d => dataField d k with
      | some s => .text s
      | none => if objectPrototypeNames.contains k then .function k else .undefined

/-- The condition `action.speech || action.thought || action.behavior`. -/
def hasContent (a : Action) : Bool :=
  !a.speech.isEmpty || !a.thought.isEmpty || !a.behavior.isEmpty

/-- The callback of `lastPhase.actions.forEach`.  An event entry has no `player` property, so
the guard `action.player && ...` rejects it. -/
def recordAction (actions : JsObject) (action : ActionV) : JsObject :=
  match action with
  | .normal a =>
    if !a.player.isEmpty && hasContent a then
      if 0 < (actionData a).keys then setProp actions a.player (actionData a) else actions
    else actions
  | .event _ _ => actions

/-- Model of `getLastActions(gameData)`. -/
def getLastActions (gameData : GameLog) : JsObject :=
  match gameData.rounds.getLast? with
  | none => emptyObject
  | some lastRound =>
    match lastRound.phases.getLast? with
    | none => emptyObject
    | some lastPhase => lastPhase.actions.foldl recordAction emptyObject

/-! ## Notions the statements use -/

/-- The entries of the last phase of the last round, `[]` when there is none. -/
def lastPhaseActions (g : GameLog) : List ActionV :=
  match g.rounds.getLast? with
  | none => []
  | some r =>
    match r.phases.getLast? with
    | none => []
    | some ph => ph.actions

/-- The normal actions of player `p` among the entries `as`, in order. -/
def actionsOf (p : Str) (as : List ActionV) : List Action :=
  as.filterMap fun e =>
    match e with
    | .normal a => if a.player == p then some a else none
    | .event _ _ => none

/-- The last action of player `p` among `as`. -/
def lastActionOf (p : Str) (as : List ActionV) : Option Action := (actionsOf p as).getLast?

/-- The last action of player `p` among `as` that has a non-empty text field. -/
def lastContentfulOf (p : Str) (as : List ActionV) : Option Action :=
  ((actionsOf p as).filter hasContent).getLast?

/-- The reading of the latest-action projection that takes a player's last action whatever it
holds: the entry of `p` lists exactly the non-empty fields of that action (no entry at all
being accepted when it has none). -/
def ProjectsLastAction (g : GameLog) (p : Str) : Prop :=
  ∀ a, lastActionOf p (lastPhaseActions g) = some a →
    getProp (getLastActions g) p = .object (actionData a) ∨
      (hasContent a = false ∧ getProp (getLastActions g) p = .undefined)

/-- A document whose last phase holds two actions of `Player2`: the first with a thought, the
second with no text at all. -/
def silentLastAction : GameLog :=
  { gameId := [], startTime := [], endTime := [], status := [], players := [],
    rounds := [{ number := .int 1, phases := [{ type := .day, actions := [
      .normal { time := "12:00:00".toList, type := "公开发言".toList, player := "Player2".toList,
                thought := "hm".toList, behavior := [], speech := [], details := [] },
      .normal { time := "12:00:05".toList, type := "投票".toList, player := "Player2".toList,
                thought := [], behavior := [], speech := [], details := [] }] }] }] }

/-- A document whose last phase holds two actions of `Player2`: the first with only a thought,
the second with only a speech. -/
def thoughtThenSpeech : GameLog :=
  { gameId := [], startTime := [], endTime := [], status := [], players := [],
    rounds := [{ number := .int 1, phases := [{ type := .day, actions := [
      .normal { time := "12:00:00".toList, type := "公开发言".toList, player := "Player2".toList,
                thought := "hm".toList, behavior := [], speech := [], details := [] },
      .normal { time := "12:00:05".toList, type := "公开发言".toList, player := "Player2".toList,
                thought := [], behavior := [], speech := "hi".toList, details := [] }] }] }] }

/-- The names a death-marker line lists: group 2 of the death expression, split at the commas
and trimmed (`deadPlayers` in the source); `[]` when the expression does not match. -/
def deathNames (line : Str) : List Str :=
  match deathMatch line with
  | some m => (jsSplit m.2 ",".toList).map trim
  | none => []

/-- What block "解析死亡公告" may do to one player when the listed names are `names`: name and
role stay, and `alive` either stays or goes from `true` to `false` for a listed name. -/
def DeathStep (names : List Str) (p q : Player) : Prop :=
  q.name = p.name ∧ q.role = p.role ∧
    (q.alive = p.alive ∨ (p.alive = true ∧ q.alive = false ∧ p.name ∈ names))

/-! ## The line loop as a total step function -/

/-- A state with the four scalar fields of `gameData` replaced: all that the blocks for the
game id, the two times and the status can change. -/
def withMeta (st : State) (gameId startTime endTime status : Str) : State :=
  { st with gameId := gameId, startTime := startTime, endTime := endTime, status := status }

/-- Block "解析回合" with its index step `match(...)[0]` known to be defined. -/
def roundStep (line : Str) (st : State) : State :=
  if roundTest line then
    { st with rounds := finalRounds st,
              currentRound := some { number := parseInt ((digitsMatch line).getD []), phases := [] },
              currentPhase := none }
  else st

/-- Everything the loop body does to the state after the four metadata blocks, up to the
system-announcement block. -/
def lineStep (line : Str) (st : State) : State :=
  parseDeath line (parseVote line (parseFields line (parseAction line (parsePhase line
    (roundStep line (parsePlayers line st))))))

/-- The line loop on lines none of which opens a system announcement: every line is trimmed
and handed to `processLine`, in order. -/
def runLines : List Str → State → Option State
  | [], st => some st
  | raw :: rest, st => (processLine (trim raw) st).bind (runLines rest)

/-- The number of the round a trimmed line opens, when it is a round header: what block
"解析回合" stores in `number`. -/
def headerNumber (line : Str) : Option JsNumber :=
  if roundTest line then some (parseInt ((digitsMatch line).getD [])) else none

/-- A trimmed line is one of the two phase markers. -/
def phaseMarker (line : Str) : Bool :=
  line == "【夜晚阶段】".toList || line == "【白天阶段】".toList

/-- The round numbers of the document a state would yield, in order. -/
def roundNumbers (st : State) : List JsNumber := (finalRounds st).map RoundObj.number

/-! ## Death propagation -/

/-- The raw line `l` is a roster line that declares player `P`, as block "解析玩家列表" reads
it. -/
def declares (l P : Str) : Prop :=
  startsWith (trim l) "- Player".toList = true ∧ ∃ role, playerMatch (trim l) = some (P, role)

/-- The raw line `l` is a death-marker line whose name list holds `P`. -/
def namesDead (l P : Str) : Prop :=
  deathTest (trim l) = true ∧ P ∈ deathNames (trim l)

/-- The player that `players.find(p => p.name === P)` returns is marked dead. -/
def DeadFirst (P : Str) (players : List Player) : Prop :=
  (players.find? fun q => q.name == P).map Player.alive = some false

/-- Death propagation as stated without regard to the open phase: whenever a roster line
declares `P` and a later death-marker line names `P`, the returned player `P` is dead. -/
def DeathPropagates (content P : Str) : Prop :=
  ∀ (pre mid post : List Str) (r d : Str),
    jsSplit content "\n".toList = pre ++ r :: mid ++ d :: post →
    declares r P → namesDead d P →
    ∃ g, parseLogContent content = some g ∧ DeadFirst P g.players

/-! ## Continuation lines -/

/-- A trimmed line that the loop body treats as plain text: it passes the guard of the
continuation branch, is no field marker, holds no vote, inspect or use keyword, and opens no
system announcement.  The empty line is one of them. -/
def plainLine (line : Str) : Bool :=
  continuationLine line && !startsWith line "(心声)".toList && !startsWith line "(表现)".toList &&
  !startsWith line "(发言)".toList && !keyword line && !systemTest line

/-- The phase object `p` of the heap holds the entry `e`. -/
def HasEntry (heap : List PhaseObj) (p : Nat) (e : Entry) : Prop :=
  ∃ ph, heap[p]? = some ph ∧ e ∈ ph.actions

/-- Multi-line accumulation with a blank line that ends the field: from the state `st`, after
an action header, a `(发言)` line with text `s`, the plain lines `cs` and a blank line, the
speech of the new action is `s` followed by each line of `cs` after a line break, and nothing
else. -/
def AccumulatesUntilBlank (st : State) (header sp : Str) (cs : List Str) (blank s : Str) : Prop :=
  ∃ st2 a, mainLoop (cs.length + 4) (header :: sp :: cs ++ [blank]) st = some st2 ∧
    st2.actionHeap[st.actionHeap.length]? = some a ∧
    a.speech = trim s ++ (cs.map fun c => '\n' :: trim c).flatten

/-- An action header that resets the open field: from the state `st`, after an action header
and the plain lines `cs`, the thought, behavior and speech of the new action are empty. -/
def HeaderResetsField (st : State) (header : Str) (cs : List Str) : Prop :=
  ∃ st2 a, mainLoop (cs.length + 2) (header :: cs) st = some st2 ∧
    st2.actionHeap[st.actionHeap.length]? = some a ∧
    a.thought = [] ∧ a.behavior = [] ∧ a.speech = []

/-- A state with a night phase open in round 1 and `Player1` in the roster. -/
def nightState : State :=
  { initState with
    players := [{ name := "Player1".toList, role := "werewolf".toList, alive := true }],
    phaseHeap := [{ type := .night, actions := [] }],
    currentRound := some { number := .int 1, phases := [0] },
    currentPhase := some 0 }

/-- The state reached after `第 1 回合`, `【白天阶段】`, `[12:00:00] 公开发言 | Player1` and
`(发言) hi`: the speech field of the first action is open. -/
def speechOpenState : State :=
  { initState with
    actionHeap := [{ time := "12:00:00".toList, type := "公开发言".toList,
                     player := "Player1".toList, thought := [], behavior := [],
                     speech := "hi".toList, details := [] }],
    phaseHeap := [{ type := .day, actions := [.action 0] }],
    currentRound := some { number := .int 1, phases := [0] },
    currentPhase := some 0,
    currentAction := some 0,
    currentLogState := some .speech }

/-! ## Ownership of phases -/

/-- Relative to a point of the scan where the phase heap held `n0` objects, the action heap
`a0` objects and the document `k0` rounds: the heaps have not shrunk, every round beyond the
first `k0` owns only phase objects created after that point, and every phase object created
after that point holds only normal actions created after it. -/
def CreatedAfter (n0 a0 k0 : Nat) (s : State) : Prop :=
  n0 ≤ s.phaseHeap.length ∧ a0 ≤ s.actionHeap.length ∧
  (∀ r ∈ (finalRounds s).drop k0, ∀ p ∈ r.phases, n0 ≤ p) ∧
  (∀ p ph, n0 ≤ p → s.phaseHeap[p]? = some ph → ∀ a, Entry.action a ∈ ph.actions → a0 ≤ a)

/-- The state reached after `【夜晚阶段】`, `[12:00:00] 狼人频道 | Player1` and
`💀 夜晚死亡 Ghost` with no round header before them: a phase that no round owns, holding an
action and a death event. -/
def danglingState : State :=
  { initState with
    actionHeap := [newAction "12:00:00".toList "狼人频道".toList "Player1".toList],
    phaseHeap := [{ type := .night,
                    actions := [.action 0, .event .death "夜晚死亡: Ghost".toList] }],
    currentPhase := some 0,
    currentAction := some 0 }

/-- The first `k` passes of the `for` loop of `parseLogContent`: the state reached and the
lines still to read (fewer passes when the lines run out). -/
def loopPrefix : Nat → List Str → State → Option (State × List Str)
  | 0, lines, st => some (st, lines)
  | _ + 1, [], st => some (st, [])
  | k + 1, raw :: rest, st =>
    (processLine (trim raw) st).bind fun st1 =>
      if systemTest (trim raw) then
        let r := collectAnnouncement rest []
        loopPrefix k (r.2.drop 1) (pushSystem r.1 st1)
      else loopPrefix k rest st1

/-- The integer `N` of a trimmed line that reads `第 N 回合`. -/
def headerInteger (line : Str) : Option Nat :=
  if roundTest line then (digitsMatch line).map digitsValue else none

/-- Round order preservation with the numbers taken as the integers written in the headers:
the numbers of the returned rounds are the integers `N` of the header lines, in order. -/
def RoundsAreHeaderIntegers (content : Str) : Prop :=
  ∃ g, parseLogContent content = some g ∧
    g.rounds.map Round.number =
      (((jsSplit content "\n".toList).map trim).filterMap headerInteger).map JsNumber.int

/-- What block "解析心声、表现、发言" does once an action is current, as a function of the
line and of `currentLogState`: the update of the current action and the new state. -/
def fieldUpdate (line : Str) (state : Option LogState) : (Action → Action) × Option LogState :=
  if startsWith line "(心声)".toList then
    (fun o => { o with thought := trim (substring line 4) }, some .thought)
  else if startsWith line "(表现)".toList then
    (fun o => { o with behavior := trim (substring line 4) }, some .behavior)
  else if startsWith line "(发言)".toList then
    (fun o => { o with speech := trim (substring line 4) }, some .speech)
  else if keyword line then (fun o => { o with details := line }, some .details)
  else if state.isSome && continuationLine line then (continueField state line, state)
  else (fun o => o, state)

/-- Two states of the scan that differ at most in the content of the phase objects below
index `n0` and of the action objects below index `a0` (and in the scalar fields and the
players, which the rounds do not depend on). -/
def AgreeFrom (n0 a0 : Nat) (s s2 : State) : Prop :=
  s2.rounds = s.rounds ∧ s2.currentRound = s.currentRound ∧ s2.currentPhase = s.currentPhase ∧
  s2.currentAction = s.currentAction ∧ s2.currentLogState = s.currentLogState ∧
  s2.phaseHeap.length = s.phaseHeap.length ∧ s2.actionHeap.length = s.actionHeap.length ∧
  (∀ i, n0 ≤ i → s2.phaseHeap[i]? = s.phaseHeap[i]?) ∧
  (∀ j, a0 ≤ j → s2.actionHeap[j]? = s.actionHeap[j]?)

/-- The number of phases that the rounds beyond the first `k0` own. -/
def phaseCount (k0 : Nat) (s : State) : Nat :=
  (((finalRounds s).drop k0).map fun r => r.phases.length).sum

/-! ## Facts about the string primitives -/

theorem splitGo_ne_nil (sep s : Str) (k : Nat) : splitGo sep s k ≠ [] := by
  induction s generalizing k with
  | nil => simp [splitGo]
  | cons c cs ih =>
    cases k with
    | succ k => simpa [splitGo] using ih k
    | zero =>
      simp only [splitGo]
      split
      · simp
      · split <;> simp

theorem splitGo_length_of_includes (sep s : Str) (hsep : sep ≠ []) (h : includes s sep = true) :
    2 ≤ (splitGo sep s 0).length := by
  induction s with
  | nil => simp [includes, hsep] at h
  | cons c cs ih =>
    simp only [splitGo]
    split
    · have := splitGo_ne_nil sep cs (sep.length - 1)
      have : 0 < (splitGo sep cs (sep.length - 1)).length := List.length_pos.mpr this
      simp only [List.length_cons]
      omega
    · rename_i hp
      simp only [includes, hp, Bool.false_or] at h
      have h2 := ih h
      split
      · rename_i he
        simp [he] at h2
      · rename_i p ps he
        simp only [he, List.length_cons] at h2 ⊢
        exact h2

theorem includes_of_startsWith (s pat : Str) (h : startsWith s pat = true) :
    includes s pat = true := by
  cases s with
  | nil =>
    cases pat with
    | nil => rfl
    | cons a as => simp [startsWith, List.isPrefixOf] at h
  | cons c cs =>
    simp only [startsWith] at h
    simp [includes, h]

theorem jsSplit_one_isSome (s sep : Str) (hsep : sep ≠ []) (h : includes s sep = true) :
    ∃ x, (jsSplit s sep)[1]? = some x := by
  have h2 := splitGo_length_of_includes sep s hsep h
  have : 1 < (jsSplit s sep).length := by unfold jsSplit; omega
  exact ⟨(jsSplit s sep)[1], List.getElem?_eq_getElem this⟩

theorem jsSplit_zero_isSome (s sep : Str) : ∃ x, (jsSplit s sep)[0]? = some x := by
  have h := splitGo_ne_nil sep s 0
  have : 0 < (jsSplit s sep).length := List.length_pos.mpr h
  exact ⟨(jsSplit s sep)[0], List.getElem?_eq_getElem this⟩

theorem firstMatch_isSome_of_drop {α : Type} (f : Str → Option α) (s : Str) (n : Nat)
    (h : (f (s.drop n)).isSome = true) : (firstMatch f s).isSome = true := by
  induction s generalizing n with
  | nil => simpa [firstMatch] using h
  | cons c cs ih =>
    simp only [firstMatch]
    cases hf : f (c :: cs) with
    | some r => simp
    | none =>
      cases n with
      | zero => simp [hf] at h
      | succ n => exact ih n (by simpa using h)

theorem digitsMatch_isSome_of_roundTest (line : Str) (h : roundTest line = true) :
    ∃ ds, digitsMatch line = some ds := by
  simp only [roundTest, Bool.and_eq_true] at h
  have : (digitsMatch line).isSome = true := by
    apply firstMatch_isSome_of_drop digitsAt line 2
    simp only [digitsAt]
    split
    · rename_i he
      simp [he] at h
    · rfl
  exact Option.isSome_iff_exists.mp this

theorem includes_iff_sub (s pat : Str) : includes s pat = true ↔ pat <:+: s := by
  induction s with
  | nil =>
    cases pat with
    | nil => simp [includes]
    | cons a as => simp [includes]
  | cons c cs ih =>
    simp only [includes, Bool.or_eq_true, List.isPrefixOf_iff_prefix, ih, List.infix_cons_iff]

theorem startsWith_iff_head (s pat : Str) : startsWith s pat = true ↔ pat <+: s := by
  simp [startsWith, List.isPrefixOf_iff_prefix]

theorem includes_of_startsWith_part (s pat sub : Str) (h : startsWith s pat = true)
    (hsub : sub <:+: pat) : includes s sub = true :=
  (includes_iff_sub s sub).mpr
    (List.IsInfix.trans hsub ((startsWith_iff_head s pat).mp h).isInfix)

/-! ## The loop always returns -/

theorem parseGameId_eq (line : Str) (st : State) :
    ∃ g, parseGameId line st = some { st with gameId := g } := by
  unfold parseGameId
  split
  · rename_i h
    obtain ⟨x, hx⟩ := jsSplit_one_isSome line ":".toList (by decide)
      (includes_of_startsWith_part line _ _ h (by decide))
    exact ⟨_, by rw [hx]; rfl⟩
  · exact ⟨st.gameId, rfl⟩

theorem parseStartTime_eq (line : Str) (st : State) :
    ∃ g, parseStartTime line st = some { st with startTime := g } := by
  unfold parseStartTime
  split
  · rename_i h
    obtain ⟨x, hx⟩ := jsSplit_one_isSome line _ (by decide)
      (includes_of_startsWith_part line _ _ h (List.infix_refl _))
    exact ⟨_, by rw [hx]; rfl⟩
  · exact ⟨st.startTime, rfl⟩

theorem parseEndTime_eq (line : Str) (st : State) :
    ∃ g, parseEndTime line st = some { st with endTime := g } := by
  unfold parseEndTime
  split
  · rename_i h
    obtain ⟨x, hx⟩ := jsSplit_one_isSome line _ (by decide)
      (includes_of_startsWith_part line _ _ h (List.infix_refl _))
    exact ⟨_, by rw [hx]; rfl⟩
  · exact ⟨st.endTime, rfl⟩

theorem parseStatus_eq (line : Str) (st : State) :
    ∃ g, parseStatus line st = some { st with status := g } := by
  unfold parseStatus
  split
  · rename_i h
    obtain ⟨x, hx⟩ := jsSplit_one_isSome line _ (by decide) h
    obtain ⟨y, hy⟩ := jsSplit_zero_isSome x "。".toList
    exact ⟨_, by rw [hx, Option.some_bind, hy]; rfl⟩
  · exact ⟨st.status, rfl⟩

theorem parseRound_eq (line : Str) (st : State) :
    parseRound line st = some (roundStep line st) := by
  unfold parseRound roundStep
  split
  · rename_i h
    obtain ⟨ds, hds⟩ := digitsMatch_isSome_of_roundTest line h
    rw [hds]
    rfl
  · rfl

/-- The loop body never throws, and apart from the four scalar fields its effect is that of
`lineStep`. -/
theorem processLine_eq (line : Str) (st : State) :
    ∃ g s e u, processLine line st = some (lineStep line (withMeta st g s e u)) := by
  unfold processLine
  obtain ⟨g, h1⟩ := parseGameId_eq line st
  obtain ⟨s, h2⟩ := parseStartTime_eq line { st with gameId := g }
  obtain ⟨e, h3⟩ := parseEndTime_eq line { st with gameId := g, startTime := s }
  obtain ⟨u, h4⟩ := parseStatus_eq line { st with gameId := g, startTime := s, endTime := e }
  refine ⟨g, s, e, u, ?_⟩
  simp only [h1, h2, h3, h4, Option.some_bind, parseRound_eq, Option.map_some']
  rfl

theorem processLine_isSome (line : Str) (st : State) : ∃ s, processLine line st = some s := by
  obtain ⟨g, s, e, u, h⟩ := processLine_eq line st
  exact ⟨_, h⟩

theorem collectAnnouncement_length (ls : List Str) (acc : Str) :
    (collectAnnouncement ls acc).2.length ≤ ls.length := by
  induction ls generalizing acc with
  | nil => simp [collectAnnouncement]
  | cons l ls ih =>
    simp only [collectAnnouncement]
    split
    · have := ih (acc ++ trim l ++ " ".toList)
      simp only [List.length_cons]
      omega
    · simp

theorem mainLoop_isSome (fuel : Nat) (lines : List Str) (st : State)
    (h : lines.length < fuel) : ∃ s, mainLoop fuel lines st = some s := by
  induction fuel generalizing lines st with
  | zero => omega
  | succ fuel ih =>
    cases lines with
    | nil => exact ⟨st, rfl⟩
    | cons raw rest =>
      obtain ⟨st1, h1⟩ := processLine_isSome (trim raw) st
      simp only [mainLoop, h1, Option.some_bind]
      simp only [List.length_cons] at h
      split
      · apply ih
        have := collectAnnouncement_length rest []
        simp only [List.length_drop]
        omega
      · apply ih
        omega

/-- C1: `parseLogContent` returns a document for every input text: no indexing step of the
scan (`split(...)[1]`, `split(...)[0]`, `match(...)[0]`) meets an undefined value, and the
line loop ends. -/
theorem parseLogContent_returns (content : Str) : ∃ g, parseLogContent content = some g := by
  obtain ⟨s, hs⟩ := mainLoop_isSome ((jsSplit content "\n".toList).length + 1)
    (jsSplit content "\n".toList) initState (Nat.lt_succ_self _)
  exact ⟨toGameLog s, by simp only [parseLogContent, scan, hs, Option.map_some']⟩

/-! ## The latest-action projection -/

theorem lookup_setKey (m : List (Str × ActionData)) (k k2 : Str) (v : ActionData) :
    lookup (setKey m k v) k2 = if k == k2 then some v else lookup m k2 := by
  induction m with
  | nil => simp [setKey, lookup]
  | cons e m ih =>
    simp only [setKey]
    by_cases h : e.1 = k
    · subst h
      by_cases h2 : e.1 = k2 <;> simp [lookup, h2]
    · simp only [beq_iff_eq, h, if_false, lookup, ih]
      by_cases h2 : e.1 = k2
      · have : ¬ k = k2 := fun hk => h (hk ▸ h2)
        simp [h2, this]
      · simp [h2]

theorem keys_pos_of_hasContent (a : Action) (h : hasContent a = true) :
    0 < (actionData a).keys := by
  simp only [hasContent, Bool.or_eq_true, Bool.not_eq_true', List.isEmpty_eq_false] at h
  simp only [ActionData.keys, actionData]
  rcases h with (h | h) | h
  · have : a.speech.isEmpty = false := by simpa using h
    simp [this]
  · have : a.thought.isEmpty = false := by simpa using h
    simp [this]
  · have : a.behavior.isEmpty = false := by simpa using h
    simp [this]

theorem recordAction_of_content (o : JsObject) (a : Action)
    (hc : (!a.player.isEmpty && hasContent a) = true) :
    recordAction o (.normal a) = setProp o a.player (actionData a) := by
  have hcc : hasContent a = true := by
    simp only [Bool.and_eq_true] at hc
    exact hc.2
  simp only [recordAction, hc, if_true, keys_pos_of_hasContent a hcc]

theorem recordAction_of_no_content (o : JsObject) (a : Action)
    (hc : ¬ (!a.player.isEmpty && hasContent a) = true) :
    recordAction o (.normal a) = o := by
  simp only [recordAction, hc, if_false, Bool.false_eq_true]

theorem lastContentfulOf_concat_event (p : Str) (as : List ActionV) (t : EventType) (d : Str) :
    lastContentfulOf p (as ++ [.event t d]) = lastContentfulOf p as := by
  simp [lastContentfulOf, actionsOf, List.filterMap_append]

theorem lastContentfulOf_concat_same (p : Str) (as : List ActionV) (a : Action)
    (hp : a.player = p) (hc : hasContent a = true) :
    lastContentfulOf p (as ++ [.normal a]) = some a := by
  simp [lastContentfulOf, actionsOf, hp, hc, List.filterMap_append, List.filter_append]

theorem lastContentfulOf_concat_other (p : Str) (as : List ActionV) (a : Action)
    (h : a.player ≠ p ∨ hasContent a = false) :
    lastContentfulOf p (as ++ [.normal a]) = lastContentfulOf p as := by
  by_cases hp : a.player = p
  · rcases h with h | h
    · exact absurd hp h
    · simp [lastContentfulOf, actionsOf, hp, h, List.filterMap_append, List.filter_append]
  · simp [lastContentfulOf, actionsOf, hp, List.filterMap_append]

theorem no_content_of_guard (p : Str) (hp : p ≠ []) (a : Action) (hpl : a.player = p)
    (hc : ¬ (!a.player.isEmpty && hasContent a) = true) : hasContent a = false := by
  have hne : a.player.isEmpty = false := by
    rw [hpl]
    cases p with
    | nil => exact absurd rfl hp
    | cons c cs => rfl
  simpa [hne] using hc

/-- The own property of a key other than `__proto__` after the loop over the entries. -/
theorem own_foldl_recordAction (p : Str) (hp : p ≠ []) (hpp : p ≠ "__proto__".toList)
    (as : List ActionV) (o : JsObject) :
    lookup (as.foldl recordAction o).own p =
      match lastContentfulOf p as with
      | some a => some (actionData a)
      | none => lookup o.own p := by
  induction as using List.reverseRecOn with
  | nil => simp [lastContentfulOf, actionsOf]
  | append_singleton as e ih =>
    simp only [List.foldl_append, List.foldl_cons, List.foldl_nil]
    cases e with
    | event t d =>
      rw [lastContentfulOf_concat_event]
      exact ih
    | normal a =>
      by_cases hc : (!a.player.isEmpty && hasContent a) = true
      · have hcc : hasContent a = true := by
          simp only [Bool.and_eq_true] at hc
          exact hc.2
        rw [recordAction_of_content _ _ hc]
        by_cases hpl : a.player = p
        · rw [lastContentfulOf_concat_same p as a hpl hcc]
          subst hpl
          have hk : (a.player == "__proto__".toList) = false := by simpa using hpp
          simp only [setProp, hk, Bool.false_eq_true, if_false, lookup_setKey,
            beq_self_eq_true, if_true]
        · rw [lastContentfulOf_concat_other p as a (Or.inl hpl), ← ih]
          unfold setProp
          split
          · rfl
          · simp only [lookup_setKey]
            rw [if_neg (by simpa using hpl)]
      · rw [recordAction_of_no_content _ _ hc]
        by_cases hpl : a.player = p
        · rw [lastContentfulOf_concat_other p as a
            (Or.inr (no_content_of_guard p hp a hpl hc))]
          exact ih
        · rw [lastContentfulOf_concat_other p as a (Or.inl hpl)]
          exact ih

/-- The loop never gives `actions` an own property named `__proto__`. -/
theorem own_proto_foldl_recordAction (as : List ActionV) (o : JsObject)
    (h : lookup o.own "__proto__".toList = none) :
    lookup (as.foldl recordAction o).own "__proto__".toList = none := by
  induction as using List.reverseRecOn with
  | nil => exact h
  | append_singleton as e ih =>
    simp only [List.foldl_append, List.foldl_cons, List.foldl_nil]
    cases e with
    | event t d => exact ih
    | normal a =>
      by_cases hc : (!a.player.isEmpty && hasContent a) = true
      · rw [recordAction_of_content _ _ hc]
        unfold setProp
        split
        · exact ih
        · rename_i hk
          simp only [lookup_setKey]
          rw [if_neg hk]
          exact ih
      · rw [recordAction_of_no_content _ _ hc]
        exact ih

/-- The prototype of `actions` after the loop over the entries. -/
theorem proto_foldl_recordAction (as : List ActionV) (o : JsObject) :
    (as.foldl recordAction o).proto =
      match lastContentfulOf "__proto__".toList as with
      | some a => some (actionData a)
      | none => o.proto := by
  induction as using List.reverseRecOn with
  | nil => simp [lastContentfulOf, actionsOf]
  | append_singleton as e ih =>
    simp only [List.foldl_append, List.foldl_cons, List.foldl_nil]
    cases e with
    | event t d =>
      rw [lastContentfulOf_concat_event]
      exact ih
    | normal a =>
      by_cases hc : (!a.player.isEmpty && hasContent a) = true
      · have hcc : hasContent a = true := by
          simp only [Bool.and_eq_true] at hc
          exact hc.2
        rw [recordAction_of_content _ _ hc]
        by_cases hpl : a.player = "__proto__".toList
        · rw [lastContentfulOf_concat_same _ as a hpl hcc]
          simp [setProp, hpl]
        · rw [lastContentfulOf_concat_other _ as a (Or.inl hpl), ← ih]
          have hk : (a.player == "__proto__".toList) = false := by simpa using hpl
          simp only [setProp, hk, Bool.false_eq_true, if_false]
      · rw [recordAction_of_no_content _ _ hc]
        by_cases hpl : a.player = "__proto__".toList
        · rw [lastContentfulOf_concat_other _ as a
            (Or.inr (no_content_of_guard _ (by decide) a hpl hc))]
          exact ih
        · rw [lastContentfulOf_concat_other _ as a (Or.inl hpl)]
          exact ih

/-- Reading, after the loop, the name of a player that has an action with text. -/
theorem getProp_foldl_recordAction (p : Str) (hp : p ≠ []) (as : List ActionV) (a : Action)
    (h : lastContentfulOf p as = some a) :
    getProp (as.foldl recordAction emptyObject) p = .object (actionData a) := by
  by_cases hpp : p = "__proto__".toList
  · subst hpp
    have h1 := own_proto_foldl_recordAction as emptyObject rfl
    have h2 := proto_foldl_recordAction as emptyObject
    rw [h] at h2
    simp only [getProp, h1, h2, beq_self_eq_true, if_true]
  · have h1 := own_foldl_recordAction p hp hpp as emptyObject
    rw [h] at h1
    simp only [getProp, h1]

theorem getLastActions_eq_foldl (g : GameLog) :
    getLastActions g = (lastPhaseActions g).foldl recordAction emptyObject := by
  unfold getLastActions lastPhaseActions
  cases h : g.rounds.getLast? with
  | none => rfl
  | some r =>
    cases h2 : r.phases.getLast? with
    | none => simp [h2]
    | some ph => simp [h2]

/-- C7 (amended): for every document and every non-empty player name `p`: when `p` has, in
the last phase of the last round, an action with a non-empty thought, behavior or speech,
reading `getLastActions(gameData)[p]` gives an object that holds exactly the non-empty fields
of the last such action of `p` (the own property `p` of the result, unless `p` is
`__proto__`); when `p` has none, `p` is no own property of the result, and
reading it gives `undefined` unless `p` is inherited (a name of `Object.prototype`, or a
field of the object that a player named `__proto__` made the prototype); other phases, other
rounds and event entries do not contribute, and the result is the empty object when there is
no round or the last round has no phase. -/
theorem getLastActions_last_contentful (g : GameLog) (p : Str) (hp : p ≠ []) :
    (∀ a, lastContentfulOf p (lastPhaseActions g) = some a →
      getProp (getLastActions g) p = .object (actionData a)) ∧
    (lastContentfulOf p (lastPhaseActions g) = none →
      lookup (getLastActions g).own p = none) ∧
    (lastContentfulOf p (lastPhaseActions g) = none →
      lastContentfulOf "__proto__".toList (lastPhaseActions g) = none →
      p ≠ "__proto__".toList → objectPrototypeNames.contains p = false →
      getProp (getLastActions g) p = .undefined) ∧
    (g.rounds = [] → getLastActions g = emptyObject) ∧
    (∀ r, g.rounds.getLast? = some r → r.phases = [] → getLastActions g = emptyObject) ∧
    (∀ a, lastContentfulOf p (lastPhaseActions g) = some a → p ≠ "__proto__".toList →
      lookup (getLastActions g).own p = some (actionData a)) := by
  have hown : lastContentfulOf p (lastPhaseActions g) = none →
      lookup (getLastActions g).own p = none := by
    intro h
    rw [getLastActions_eq_foldl]
    by_cases hpp : p = "__proto__".toList
    · subst hpp
      exact own_proto_foldl_recordAction _ emptyObject rfl
    · rw [own_foldl_recordAction p hp hpp, h]
      rfl
  refine ⟨?_, hown, ?_, ?_, ?_, ?_⟩
  rotate_right
  · intro a h hpp
    rw [getLastActions_eq_foldl, own_foldl_recordAction p hp hpp, h]
  · intro a h
    rw [getLastActions_eq_foldl]
    exact getProp_foldl_recordAction p hp _ a h
  · intro h hproto hpp hnames
    have h1 := hown h
    have h2 : (getLastActions g).proto = none := by
      rw [getLastActions_eq_foldl, proto_foldl_recordAction, hproto]
      rfl
    have hk : (p == "__proto__".toList) = false := by simpa using hpp
    simp only [getProp, h1, h2, hk, Bool.false_eq_true, if_false, Option.none_bind, hnames]
  · intro h
    simp [getLastActions, h]
  · intro r hr hph
    simp [getLastActions, hr, hph]

/-- C7, witness of the amended statement on `silentLastAction`: the entry of `Player2` holds
the thought of its first action, the last one with text. -/
theorem getLastActions_last_contentful_witness :
    getProp (getLastActions silentLastAction) "Player2".toList =
      .object { thought := some "hm".toList, behavior := none, speech := none } :=
  (getLastActions_last_contentful silentLastAction "Player2".toList (by decide)).1
    { time := "12:00:00".toList, type := "公开发言".toList, player := "Player2".toList,
      thought := "hm".toList, behavior := [], speech := [], details := [] } (by decide)

/-- C7, counterexample: in `silentLastAction` the last action of `Player2` has no text, yet
the projection still shows the thought of the action before it. -/
theorem projectsLastAction_fails :
    ¬ ProjectsLastAction silentLastAction "Player2".toList := by
  intro h
  have h2 := h { time := "12:00:05".toList, type := "投票".toList, player := "Player2".toList,
                 thought := [], behavior := [], speech := [], details := [] } (by decide)
  revert h2
  decide

/-- C8: when a player has two actions in the last phase of the last round and the later one
has a non-empty thought, behavior or speech (and no action of that player after it has any),
reading the entry of that player gives an object that holds exactly the non-empty fields of
the later action, whatever the earlier action held; unless the player is named `__proto__`
that object is the own property of the result under the name of the player. -/
theorem getLastActions_no_merge (g : GameLog) (r : Round) (ph : Phase)
    (pre mid post : List ActionV) (a1 a2 : Action)
    (hr : g.rounds.getLast? = some r) (hph : r.phases.getLast? = some ph)
    (hacts : ph.actions = pre ++ ActionV.normal a1 :: mid ++ ActionV.normal a2 :: post)
    (hsame : a1.player = a2.player) (hne : a2.player ≠ [])
    (hcontent : hasContent a2 = true)
    (hlast : ∀ b, ActionV.normal b ∈ post → b.player = a2.player → hasContent b = false) :
    getProp (getLastActions g) a1.player = .object (actionData a2) ∧
    (a1.player ≠ "__proto__".toList →
      lookup (getLastActions g).own a1.player = some (actionData a2)) := by
  rw [hsame]
  have hl : lastPhaseActions g = pre ++ ActionV.normal a1 :: mid ++ ActionV.normal a2 :: post := by
    simp only [lastPhaseActions, hr, hph, hacts]
  have hpost : (actionsOf a2.player post).filter hasContent = [] := by
    rw [List.filter_eq_nil_iff]
    intro b hb
    simp only [actionsOf, List.mem_filterMap] at hb
    obtain ⟨e, he, heq⟩ := hb
    cases e with
    | event t d => simp at heq
    | normal c =>
      by_cases hc : c.player = a2.player
      · simp only [hc, beq_self_eq_true, if_true, Option.some.injEq] at heq
        subst heq
        simp [hlast c he hc]
      · simp [hc] at heq
  have : lastContentfulOf a2.player
      (pre ++ ActionV.normal a1 :: mid ++ ActionV.normal a2 :: post) = some a2 := by
    have hsplit : pre ++ ActionV.normal a1 :: mid ++ ActionV.normal a2 :: post =
        (pre ++ ActionV.normal a1 :: mid) ++ ([ActionV.normal a2] ++ post) := by simp
    rw [hsplit]
    simp only [lastContentfulOf, actionsOf, List.filterMap_append, List.filter_append]
    have h2 : List.filter hasContent (List.filterMap (fun e =>
        match e with
        | ActionV.normal a => if (a.player == a2.player) = true then some a else none
        | ActionV.event _ _ => none) post) = [] := hpost
    rw [h2]
    simp [hcontent]
  rw [getLastActions_eq_foldl, hl]
  refine ⟨getProp_foldl_recordAction _ hne _ a2 this, fun hpp => ?_⟩
  rw [own_foldl_recordAction _ hne hpp, this]

/-- C8, witness: `Player2` first with only a thought, then with only a speech, gets an entry
that holds the speech alone. -/
theorem getLastActions_no_merge_witness :
    getProp (getLastActions thoughtThenSpeech) "Player2".toList =
      .object { thought := none, behavior := none, speech := some "hi".toList } ∧
    ("Player2".toList ≠ "__proto__".toList →
      lookup (getLastActions thoughtThenSpeech).own "Player2".toList =
        some { thought := none, behavior := none, speech := some "hi".toList }) :=
  getLastActions_no_merge thoughtThenSpeech _ _ [] [] []
    { time := "12:00:00".toList, type := "公开发言".toList, player := "Player2".toList,
      thought := "hm".toList, behavior := [], speech := [], details := [] }
    { time := "12:00:05".toList, type := "公开发言".toList, player := "Player2".toList,
      thought := [], behavior := [], speech := "hi".toList, details := [] }
    rfl rfl rfl rfl (by decide) (by decide) (by simp)

/-- The inherited names on concrete documents: with no round at all, `constructor` reads as
a function of `Object.prototype`; a player named `__proto__` adds no own property, and its
entry is read back through the prototype. -/
theorem getProp_inherited_sample :
    getProp (getLastActions { silentLastAction with rounds := [] }) "constructor".toList =
        .function "constructor".toList ∧
    getProp (recordAction emptyObject (.normal { (newAction [] [] "__proto__".toList) with
        speech := "hi".toList })) "__proto__".toList =
        .object { thought := none, behavior := none, speech := some "hi".toList } ∧
    getProp (recordAction emptyObject (.normal { (newAction [] [] "__proto__".toList) with
        speech := "hi".toList })) "speech".toList = .text "hi".toList := by
  decide

/-! ## The death marker and the roster -/

theorem deathStep_refl (names : List Str) (ps : List Player) :
    List.Forall₂ (DeathStep names) ps ps := by
  induction ps with
  | nil => exact List.Forall₂.nil
  | cons p ps ih => exact List.Forall₂.cons ⟨rfl, rfl, Or.inl rfl⟩ ih

theorem deathStep_markDead (names : List Str) (n : Str) (hn : n ∈ names) (ps : List Player) :
    List.Forall₂ (DeathStep names) ps (markDead ps n) := by
  induction ps with
  | nil => exact List.Forall₂.nil
  | cons p ps ih =>
    simp only [markDead]
    split
    · rename_i h
      have hname : p.name = n := by simpa using h
      refine List.Forall₂.cons ⟨rfl, rfl, ?_⟩ (deathStep_refl names ps)
      cases hal : p.alive with
      | false => exact Or.inl rfl
      | true => exact Or.inr ⟨rfl, rfl, hname ▸ hn⟩
    · exact List.Forall₂.cons ⟨rfl, rfl, Or.inl rfl⟩ ih

theorem deathStep_trans (names : List Str) (ps qs rs : List Player)
    (h1 : List.Forall₂ (DeathStep names) ps qs) (h2 : List.Forall₂ (DeathStep names) qs rs) :
    List.Forall₂ (DeathStep names) ps rs := by
  induction h1 generalizing rs with
  | nil => cases h2; exact List.Forall₂.nil
  | cons hpq _ ih =>
    cases h2 with
    | cons hqr h2t =>
      refine List.Forall₂.cons ?_ (ih _ h2t)
      obtain ⟨hn1, hr1, ha1⟩ := hpq
      obtain ⟨hn2, hr2, ha2⟩ := hqr
      refine ⟨hn2.trans hn1, hr2.trans hr1, ?_⟩
      rcases ha1 with ha1 | ⟨hp, hq, hmem⟩
      · rcases ha2 with ha2 | ⟨hq2, hr, hmem⟩
        · exact Or.inl (ha2.trans ha1)
        · exact Or.inr ⟨ha1 ▸ hq2, hr, hn1 ▸ hmem⟩
      · rcases ha2 with ha2 | ⟨hq2, _, _⟩
        · exact Or.inr ⟨hp, ha2.trans hq, hmem⟩
        · rw [hq] at hq2
          exact absurd hq2 (by decide)

theorem deathStep_foldl (names : List Str) (ns : List Str) (hns : ∀ n ∈ ns, n ∈ names)
    (ps : List Player) : List.Forall₂ (DeathStep names) ps (ns.foldl markDead ps) := by
  induction ns generalizing ps with
  | nil => exact deathStep_refl names ps
  | cons n ns ih =>
    simp only [List.foldl_cons]
    exact deathStep_trans names _ _ _
      (deathStep_markDead names n (hns n (List.mem_cons_self n ns)) ps)
      (ih (fun m hm => hns m (List.mem_cons_of_mem n hm)) _)

theorem markDead_of_not_mem (ps : List Player) (n : Str) (h : n ∉ ps.map Player.name) :
    markDead ps n = ps := by
  induction ps with
  | nil => rfl
  | cons p ps ih =>
    simp only [List.map_cons, List.mem_cons, not_or] at h
    have hne : ¬ p.name = n := fun e => h.1 e.symm
    simp [markDead, hne, ih h.2]

theorem foldl_markDead_of_not_mem (ns : List Str) (ps : List Player)
    (h : ∀ n ∈ ns, n ∉ ps.map Player.name) : ns.foldl markDead ps = ps := by
  induction ns with
  | nil => rfl
  | cons n ns ih =>
    simp only [List.foldl_cons]
    rw [markDead_of_not_mem ps n (h n (List.mem_cons_self n ns))]
    exact ih (fun m hm => h m (List.mem_cons_of_mem n hm))

theorem parseDeath_deathStep (line : Str) (st : State) :
    List.Forall₂ (DeathStep (deathNames line)) st.players (parseDeath line st).players ∧
    ((∀ n ∈ deathNames line, n ∉ st.players.map Player.name) →
      (parseDeath line st).players = st.players) := by
  unfold parseDeath
  split
  · split
    · rename_i m p hm hp
      have hnames : deathNames line = (jsSplit m.2 ",".toList).map trim := by
        simp only [deathNames, hm]
      simp only
      rw [hnames]
      exact ⟨deathStep_foldl _ _ (fun n hn => hn) _,
        fun h => foldl_markDead_of_not_mem _ _ h⟩
    · exact ⟨deathStep_refl _ _, fun _ => rfl⟩
  · exact ⟨deathStep_refl _ _, fun _ => rfl⟩

/-! ## What each block leaves alone -/

@[simp] theorem withMeta_players (st : State) (g s e u : Str) :
    (withMeta st g s e u).players = st.players := rfl

@[simp] theorem withMeta_rounds (st : State) (g s e u : Str) :
    (withMeta st g s e u).rounds = st.rounds := rfl

@[simp] theorem withMeta_currentRound (st : State) (g s e u : Str) :
    (withMeta st g s e u).currentRound = st.currentRound := rfl

@[simp] theorem withMeta_currentPhase (st : State) (g s e u : Str) :
    (withMeta st g s e u).currentPhase = st.currentPhase := rfl

@[simp] theorem withMeta_currentAction (st : State) (g s e u : Str) :
    (withMeta st g s e u).currentAction = st.currentAction := rfl

@[simp] theorem withMeta_currentLogState (st : State) (g s e u : Str) :
    (withMeta st g s e u).currentLogState = st.currentLogState := rfl

@[simp] theorem withMeta_actionHeap (st : State) (g s e u : Str) :
    (withMeta st g s e u).actionHeap = st.actionHeap := rfl

@[simp] theorem withMeta_phaseHeap (st : State) (g s e u : Str) :
    (withMeta st g s e u).phaseHeap = st.phaseHeap := rfl

@[simp] theorem pushSystem_players (a : Str) (st : State) :
    (pushSystem a st).players = st.players := rfl

@[simp] theorem pushSystem_rounds (a : Str) (st : State) :
    (pushSystem a st).rounds = st.rounds := rfl

@[simp] theorem pushSystem_currentRound (a : Str) (st : State) :
    (pushSystem a st).currentRound = st.currentRound := rfl

@[simp] theorem pushSystem_currentPhase (a : Str) (st : State) :
    (pushSystem a st).currentPhase = st.currentPhase := rfl

@[simp] theorem pushSystem_currentAction (a : Str) (st : State) :
    (pushSystem a st).currentAction = st.currentAction := rfl

@[simp] theorem pushSystem_currentLogState (a : Str) (st : State) :
    (pushSystem a st).currentLogState = st.currentLogState := rfl

@[simp] theorem pushSystem_actionHeap (a : Str) (st : State) :
    (pushSystem a st).actionHeap = st.actionHeap := rfl

@[simp] theorem parsePlayers_rounds (line : Str) (st : State) :
    (parsePlayers line st).rounds = st.rounds := by
  unfold parsePlayers
  repeat' split
  all_goals rfl

@[simp] theorem parsePlayers_currentRound (line : Str) (st : State) :
    (parsePlayers line st).currentRound = st.currentRound := by
  unfold parsePlayers
  repeat' split
  all_goals rfl

@[simp] theorem parsePlayers_currentPhase (line : Str) (st : State) :
    (parsePlayers line st).currentPhase = st.currentPhase := by
  unfold parsePlayers
  repeat' split
  all_goals rfl

@[simp] theorem parsePlayers_currentAction (line : Str) (st : State) :
    (parsePlayers line st).currentAction = st.currentAction := by
  unfold parsePlayers
  repeat' split
  all_goals rfl

@[simp] theorem parsePlayers_currentLogState (line : Str) (st : State) :
    (parsePlayers line st).currentLogState = st.currentLogState := by
  unfold parsePlayers
  repeat' split
  all_goals rfl

@[simp] theorem parsePlayers_actionHeap (line : Str) (st : State) :
    (parsePlayers line st).actionHeap = st.actionHeap := by
  unfold parsePlayers
  repeat' split
  all_goals rfl

@[simp] theorem parsePlayers_phaseHeap (line : Str) (st : State) :
    (parsePlayers line st).phaseHeap = st.phaseHeap := by
  unfold parsePlayers
  repeat' split
  all_goals rfl

@[simp] theorem roundStep_players (line : Str) (st : State) :
    (roundStep line st).players = st.players := by
  unfold roundStep
  repeat' split
  all_goals rfl

@[simp] theorem roundStep_currentAction (line : Str) (st : State) :
    (roundStep line st).currentAction = st.currentAction := by
  unfold roundStep
  repeat' split
  all_goals rfl

@[simp] theorem roundStep_currentLogState (line : Str) (st : State) :
    (roundStep line st).currentLogState = st.currentLogState := by
  unfold roundStep
  repeat' split
  all_goals rfl

@[simp] theorem roundStep_actionHeap (line : Str) (st : State) :
    (roundStep line st).actionHeap = st.actionHeap := by
  unfold roundStep
  repeat' split
  all_goals rfl

@[simp] theorem roundStep_phaseHeap (line : Str) (st : State) :
    (roundStep line st).phaseHeap = st.phaseHeap := by
  unfold roundStep
  repeat' split
  all_goals rfl

@[simp] theorem parsePhase_players (line : Str) (st : State) :
    (parsePhase line st).players = st.players := by
  unfold parsePhase
  repeat' split
  all_goals rfl

@[simp] theorem parsePhase_rounds (line : Str) (st : State) :
    (parsePhase line st).rounds = st.rounds := by
  unfold parsePhase
  repeat' split
  all_goals rfl

@[simp] theorem parsePhase_currentAction (line : Str) (st : State) :
    (parsePhase line st).currentAction = st.currentAction := by
  unfold parsePhase
  repeat' split
  all_goals rfl

@[simp] theorem parsePhase_currentLogState (line : Str) (st : State) :
    (parsePhase line st).currentLogState = st.currentLogState := by
  unfold parsePhase
  repeat' split
  all_goals rfl

@[simp] theorem parsePhase_actionHeap (line : Str) (st : State) :
    (parsePhase line st).actionHeap = st.actionHeap := by
  unfold parsePhase
  repeat' split
  all_goals rfl

@[simp] theorem parseAction_players (line : Str) (st : State) :
    (parseAction line st).players = st.players := by
  unfold parseAction
  repeat' split
  all_goals rfl

@[simp] theorem parseAction_rounds (line : Str) (st : State) :
    (parseAction line st).rounds = st.rounds := by
  unfold parseAction
  repeat' split
  all_goals rfl

@[simp] theorem parseAction_currentRound (line : Str) (st : State) :
    (parseAction line st).currentRound = st.currentRound := by
  unfold parseAction
  repeat' split
  all_goals rfl

@[simp] theorem parseAction_currentPhase (line : Str) (st : State) :
    (parseAction line st).currentPhase = st.currentPhase := by
  unfold parseAction
  repeat' split
  all_goals rfl

@[simp] theorem parseAction_currentLogState (line : Str) (st : State) :
    (parseAction line st).currentLogState = st.currentLogState := by
  unfold parseAction
  repeat' split
  all_goals rfl

@[simp] theorem parseFields_players (line : Str) (st : State) :
    (parseFields line st).players = st.players := by
  unfold parseFields
  repeat' split
  all_goals rfl

@[simp] theorem parseFields_rounds (line : Str) (st : State) :
    (parseFields line st).rounds = st.rounds := by
  unfold parseFields
  repeat' split
  all_goals rfl

@[simp] theorem parseFields_currentRound (line : Str) (st : State) :
    (parseFields line st).currentRound = st.currentRound := by
  unfold parseFields
  repeat' split
  all_goals rfl

@[simp] theorem parseFields_currentPhase (line : Str) (st : State) :
    (parseFields line st).currentPhase = st.currentPhase := by
  unfold parseFields
  repeat' split
  all_goals rfl

@[simp] theorem parseFields_currentAction (line : Str) (st : State) :
    (parseFields line st).currentAction = st.currentAction := by
  unfold parseFields
  repeat' split
  all_goals rfl

@[simp] theorem parseFields_phaseHeap (line : Str) (st : State) :
    (parseFields line st).phaseHeap = st.phaseHeap := by
  unfold parseFields
  repeat' split
  all_goals rfl

@[simp] theorem parseVote_players (line : Str) (st : State) :
    (parseVote line st).players = st.players := by
  unfold parseVote
  repeat' split
  all_goals rfl

@[simp] theorem parseVote_rounds (line : Str) (st : State) :
    (parseVote line st).rounds = st.rounds := by
  unfold parseVote
  repeat' split
  all_goals rfl

@[simp] theorem parseVote_currentRound (line : Str) (st : State) :
    (parseVote line st).currentRound = st.currentRound := by
  unfold parseVote
  repeat' split
  all_goals rfl

@[simp] theorem parseVote_currentPhase (line : Str) (st : State) :
    (parseVote line st).currentPhase = st.currentPhase := by
  unfold parseVote
  repeat' split
  all_goals rfl

@[simp] theorem parseVote_currentAction (line : Str) (st : State) :
    (parseVote line st).currentAction = st.currentAction := by
  unfold parseVote
  repeat' split
  all_goals rfl

@[simp] theorem parseVote_currentLogState (line : Str) (st : State) :
    (parseVote line st).currentLogState = st.currentLogState := by
  unfold parseVote
  repeat' split
  all_goals rfl

@[simp] theorem parseVote_actionHeap (line : Str) (st : State) :
    (parseVote line st).actionHeap = st.actionHeap := by
  unfold parseVote
  repeat' split
  all_goals rfl

@[simp] theorem parseDeath_rounds (line : Str) (st : State) :
    (parseDeath line st).rounds = st.rounds := by
  unfold parseDeath
  repeat' split
  all_goals rfl

@[simp] theorem parseDeath_currentRound (line : Str) (st : State) :
    (parseDeath line st).currentRound = st.currentRound := by
  unfold parseDeath
  repeat' split
  all_goals rfl

@[simp] theorem parseDeath_currentPhase (line : Str) (st : State) :
    (parseDeath line st).currentPhase = st.currentPhase := by
  unfold parseDeath
  repeat' split
  all_goals rfl

@[simp] theorem parseDeath_currentAction (line : Str) (st : State) :
    (parseDeath line st).currentAction = st.currentAction := by
  unfold parseDeath
  repeat' split
  all_goals rfl

@[simp] theorem parseDeath_currentLogState (line : Str) (st : State) :
    (parseDeath line st).currentLogState = st.currentLogState := by
  unfold parseDeath
  repeat' split
  all_goals rfl

@[simp] theorem parseDeath_actionHeap (line : Str) (st : State) :
    (parseDeath line st).actionHeap = st.actionHeap := by
  unfold parseDeath
  repeat' split
  all_goals rfl

/-! ## The loop without system announcements -/

theorem mainLoop_eq_runLines (fuel : Nat) (lines : List Str) (st : State)
    (hfuel : lines.length < fuel) (hsys : ∀ l ∈ lines, systemTest (trim l) = false) :
    mainLoop fuel lines st = runLines lines st := by
  induction fuel generalizing lines st with
  | zero => omega
  | succ fuel ih =>
    cases lines with
    | nil => rfl
    | cons raw rest =>
      simp only [mainLoop, runLines, hsys raw (List.mem_cons_self raw rest)]
      simp only [List.length_cons] at hfuel
      congr 1
      funext st1
      exact ih rest st1 (by omega) (fun l hl => hsys l (List.mem_cons_of_mem raw hl))

theorem scan_eq_runLines (content : Str)
    (hsys : ∀ l ∈ jsSplit content "\n".toList, systemTest (trim l) = false) :
    scan content = runLines (jsSplit content "\n".toList) initState := by
  unfold scan
  exact mainLoop_eq_runLines _ _ _ (Nat.lt_succ_self _) hsys

/-- Induction principle for `runLines`: a property that holds at the start and that
`lineStep` carries over, whatever the metadata blocks wrote, holds at the end. -/
theorem runLines_induct (P : List Str → State → Prop) (lines : List Str) (st : State)
    (h0 : P [] st)
    (hstep : ∀ (done : List Str) (raw : Str) (s : State) (g t e u : Str), P done s →
      P (done ++ [raw]) (lineStep (trim raw) (withMeta s g t e u))) :
    ∃ st2, runLines lines st = some st2 ∧ P lines st2 := by
  suffices hgen : ∀ (rest done : List Str) (s : State), P done s →
      ∃ st2, runLines rest s = some st2 ∧ P (done ++ rest) st2 by
    simpa using hgen lines [] st h0
  intro rest
  induction rest with
  | nil =>
    intro done s hP
    exact ⟨s, rfl, by simpa using hP⟩
  | cons raw rest ih =>
    intro done s hP
    obtain ⟨g, t, e, u, hpl⟩ := processLine_eq (trim raw) s
    obtain ⟨st2, hrun, hP2⟩ := ih (done ++ [raw]) _ (hstep done raw s g t e u hP)
    refine ⟨st2, ?_, by simpa using hP2⟩
    simp only [runLines, hpl, Option.some_bind, hrun]

theorem runLines_append (a b : List Str) (st : State) :
    runLines (a ++ b) st = (runLines a st).bind (runLines b) := by
  induction a generalizing st with
  | nil => rfl
  | cons l a ih =>
    simp only [List.cons_append, runLines]
    cases processLine (trim l) st with
    | none => rfl
    | some s => exact ih s

theorem mem_drop_concat {α : Type} (l : List α) (x r : α) (k : Nat)
    (h : r ∈ (l ++ [x]).drop k) : r ∈ l.drop k ∨ (r = x ∧ k ≤ l.length) := by
  rw [List.drop_append_eq_append_drop, List.mem_append] at h
  rcases h with h | h
  · exact Or.inl h
  · right
    by_cases hk : k ≤ l.length
    · have h0 : k - l.length = 0 := by omega
      rw [h0] at h
      simp only [List.drop_zero, List.mem_singleton] at h
      exact ⟨h, hk⟩
    · have h1 : k - l.length = (k - l.length - 1) + 1 := by omega
      rw [h1] at h
      simp at h

theorem mem_drop_concat_of_le {α : Type} (l : List α) (x : α) (k : Nat) (hk : k ≤ l.length) :
    x ∈ (l ++ [x]).drop k := by
  rw [List.drop_append_eq_append_drop, List.mem_append]
  right
  have h0 : k - l.length = 0 := by omega
  rw [h0]
  simp

theorem mem_drop_concat_of_mem {α : Type} (l : List α) (x r : α) (k : Nat)
    (h : r ∈ l.drop k) : r ∈ (l ++ [x]).drop k := by
  rw [List.drop_append_eq_append_drop, List.mem_append]
  exact Or.inl h

/-! ## Round headers -/

theorem finalRounds_congr (a b : State) (hr : a.rounds = b.rounds)
    (hc : a.currentRound = b.currentRound) : finalRounds a = finalRounds b := by
  simp only [finalRounds, hr, hc]

theorem finalRounds_roundStep (line : Str) (st : State) :
    finalRounds (roundStep line st) =
      if roundTest line then
        finalRounds st ++ [{ number := parseInt ((digitsMatch line).getD []), phases := [] }]
      else finalRounds st := by
  unfold roundStep
  split
  · rfl
  · rfl

theorem roundNumbers_openPhase (t : PhaseType) (st : State) :
    roundNumbers (openPhase t st) = roundNumbers st := by
  unfold roundNumbers finalRounds openPhase
  cases st.currentRound with
  | none => rfl
  | some r => simp

theorem roundNumbers_parsePhase (line : Str) (st : State) :
    roundNumbers (parsePhase line st) = roundNumbers st := by
  unfold parsePhase
  split
  · exact roundNumbers_openPhase _ _
  · split
    · exact roundNumbers_openPhase _ _
    · rfl

theorem roundNumbers_lineStep (line : Str) (st : State) :
    roundNumbers (lineStep line st) = roundNumbers st ++ (headerNumber line).toList := by
  have h1 : roundNumbers (lineStep line st) =
      roundNumbers (parsePhase line (roundStep line (parsePlayers line st))) := by
    unfold roundNumbers lineStep
    rw [finalRounds_congr _ (parsePhase line (roundStep line (parsePlayers line st)))
      (by simp) (by simp)]
  rw [h1, roundNumbers_parsePhase]
  unfold roundNumbers
  rw [finalRounds_roundStep]
  have h2 : finalRounds (parsePlayers line st) = finalRounds st :=
    finalRounds_congr _ _ (by simp) (by simp)
  unfold headerNumber
  split
  · simp [h2]
  · simp [h2]

theorem takeWhile_digits_header (ds : Str) (hall : ∀ c ∈ ds, isDigit c = true) :
    (ds ++ " 回合".toList).takeWhile isDigit = ds ∧
    (ds ++ " 回合".toList).dropWhile isDigit = " 回合".toList := by
  constructor
  · rw [List.takeWhile_append_of_pos hall]
    have : " 回合".toList.takeWhile isDigit = [] := by decide
    rw [this, List.append_nil]
  · rw [List.dropWhile_append_of_pos hall]
    decide

theorem digitsMatch_header (ds : Str) (hne : ds ≠ []) (hall : ∀ c ∈ ds, isDigit c = true) :
    digitsMatch ("第 ".toList ++ ds ++ " 回合".toList) = some ds := by
  have h1 : "第 ".toList ++ ds ++ " 回合".toList = '第' :: ' ' :: (ds ++ " 回合".toList) := by
    simp
  have hd : digitsAt (ds ++ " 回合".toList) = some ds := by
    unfold digitsAt
    simp only [(takeWhile_digits_header ds hall).1]
    cases ds with
    | nil => exact absurd rfl hne
    | cons d ds => rfl
  rw [h1]
  unfold digitsMatch
  have e1 : ∀ t : Str, digitsAt ('第' :: t) = none := by
    intro t
    have : isDigit '第' = false := by decide
    simp [digitsAt, List.takeWhile, this]
  have e2 : ∀ t : Str, digitsAt (' ' :: t) = none := by
    intro t
    have : isDigit ' ' = false := by decide
    simp [digitsAt, List.takeWhile, this]
  simp only [firstMatch, e1, e2]
  cases hds : ds ++ " 回合".toList with
  | nil =>
    cases ds with
    | nil => exact absurd rfl hne
    | cons d ds => simp at hds
  | cons c cs =>
    simp only [firstMatch]
    rw [← hds, hd]

theorem foldl_digits (ds : Str) (acc : Nat) :
    ds.foldl (fun n c => 10 * n + (c.toNat - 48)) acc =
      acc * 10 ^ ds.length + Nat.ofDigits 10 ((ds.map fun c => c.toNat - 48).reverse) := by
  induction ds generalizing acc with
  | nil => simp
  | cons d ds ih =>
    simp only [List.foldl_cons, ih, List.map_cons, List.reverse_cons, Nat.ofDigits_append,
      Nat.ofDigits_singleton, List.length_reverse, List.length_map, List.length_cons]
    ring

/-- The integer that `parseInt` reads is the decimal value of the digits. -/
theorem digitsValue_eq (ds : Str) :
    digitsValue ds = Nat.ofDigits 10 ((ds.map fun c => c.toNat - 48).reverse) := by
  unfold digitsValue
  rw [foldl_digits]
  simp

/-- An integer up to `2^53` is its own number value. -/
theorem toNumber_small (n : Nat) (h : n ≤ 2 ^ 53) : toNumber n = .int n := by
  rcases Nat.lt_or_ge n (2 ^ 53) with hlt | hge
  · have hs : roundShift n n = 0 := by
      cases n with
      | zero => rfl
      | succ k => simp only [roundShift, hlt, if_true]
    have h2 : n < doubleLimit := lt_trans hlt (by decide)
    simp [toNumber, hs, Nat.mod_one]
    exact h2
  · have : n = 2 ^ 53 := Nat.le_antisymm h hge
    subst this
    decide

/-- The round-header expression accepts exactly the lines `第 N 回合` with `N` a non-empty
run of decimal digits, and the stored number is the value of those digits. -/
theorem headerNumber_eq_some_iff (l : Str) (n : JsNumber) :
    headerNumber l = some n ↔
      ∃ ds : Str, ds ≠ [] ∧ (∀ c ∈ ds, isDigit c = true) ∧
        l = "第 ".toList ++ ds ++ " 回合".toList ∧ n = parseInt ds := by
  constructor
  · intro h
    unfold headerNumber at h
    split at h
    · rename_i ht
      simp only [roundTest, Bool.and_eq_true, Bool.not_eq_true', beq_iff_eq] at ht
      obtain ⟨⟨hpre, hne⟩, hrest⟩ := ht
      have hp : "第 ".toList <+: l := (startsWith_iff_head l _).mp hpre
      have hl : l = "第 ".toList ++ l.drop 2 := by
        have := List.prefix_iff_eq_append.mp hp
        simpa using this.symm
      have hsplit : l.drop 2 = (l.drop 2).takeWhile isDigit ++ " 回合".toList := by
        rw [← hrest, List.takeWhile_append_dropWhile]
      have hall : ∀ c ∈ (l.drop 2).takeWhile isDigit, isDigit c = true :=
        fun c hc => List.mem_takeWhile_imp hc
      have hne2 : (l.drop 2).takeWhile isDigit ≠ [] := by
        intro he
        simp [he] at hne
      have hl2 : l = "第 ".toList ++ (l.drop 2).takeWhile isDigit ++ " 回合".toList := by
        rw [List.append_assoc, ← hsplit]
        exact hl
      refine ⟨(l.drop 2).takeWhile isDigit, hne2, hall, hl2, ?_⟩
      have hdm := digitsMatch_header _ hne2 hall
      rw [← hl2] at hdm
      simp only [hdm, Option.getD_some, Option.some.injEq] at h
      exact h.symm
    · exact absurd h (by simp)
  · rintro ⟨ds, hne, hall, hl, hn⟩
    have ht : roundTest l = true := by
      subst hl
      have hd : ("第 ".toList ++ ds ++ " 回合".toList).drop 2 = ds ++ " 回合".toList := by simp
      have hs : startsWith ("第 ".toList ++ ds ++ " 回合".toList) "第 ".toList = true := by
        rw [startsWith_iff_head]
        exact ⟨ds ++ " 回合".toList, by simp⟩
      simp only [roundTest, hd, (takeWhile_digits_header ds hall).1,
        (takeWhile_digits_header ds hall).2, hs, Bool.true_and, beq_self_eq_true, Bool.and_true,
        Bool.not_eq_true', List.isEmpty_eq_false]
      exact hne
    unfold headerNumber
    rw [if_pos ht, hl, digitsMatch_header ds hne hall, hn]
    rfl

theorem parsePhase_of_not_marker (line : Str) (st : State) (h : phaseMarker line = false) :
    parsePhase line st = st := by
  simp only [phaseMarker, Bool.or_eq_false_iff] at h
  simp only [parsePhase, h.1, h.2]
  rfl

theorem finalRounds_lineStep_of_not_marker (line : Str) (st : State)
    (h : phaseMarker line = false) :
    finalRounds (lineStep line st) =
      finalRounds st ++ ((headerNumber line).toList.map fun n => { number := n, phases := [] }) := by
  have h1 : finalRounds (lineStep line st) = finalRounds (roundStep line (parsePlayers line st)) := by
    unfold lineStep
    rw [parsePhase_of_not_marker _ _ h]
    exact finalRounds_congr _ _ (by simp) (by simp)
  rw [h1, finalRounds_roundStep]
  have h2 : finalRounds (parsePlayers line st) = finalRounds st :=
    finalRounds_congr _ _ (by simp) (by simp)
  unfold headerNumber
  split
  · simp [h2]
  · simp [h2]

theorem toGameLog_rounds_number (st : State) :
    (toGameLog st).rounds.map Round.number = roundNumbers st := by
  simp [toGameLog, roundNumbers, resolveRound, List.map_map, Function.comp_def]

theorem toGameLog_phases_nil (st : State) (h : ∀ r ∈ finalRounds st, r.phases = []) :
    ∀ r ∈ (toGameLog st).rounds, r.phases = [] := by
  intro r hr
  simp only [toGameLog, List.mem_map] at hr
  obtain ⟨ro, hro, rfl⟩ := hr
  simp [resolveRound, h ro hro]

/-- The rounds a run of lines adds: their numbers follow the headers, and when no line of the
run is a phase marker the rounds it adds have no phases. -/
theorem runLines_rounds (lines : List Str) (st : State) :
    ∃ st2, runLines lines st = some st2 ∧
      roundNumbers st2 = roundNumbers st ++ (lines.map trim).filterMap headerNumber ∧
      ((∀ l ∈ lines, phaseMarker (trim l) = false) →
        ∀ r ∈ (finalRounds st2).drop (finalRounds st).length, r.phases = []) := by
  obtain ⟨st2, hrun, hP1, hP2⟩ := runLines_induct
    (fun done s => roundNumbers s = roundNumbers st ++ (done.map trim).filterMap headerNumber ∧
      ((∀ l ∈ done, phaseMarker (trim l) = false) →
        ∀ r ∈ (finalRounds s).drop (finalRounds st).length, r.phases = []))
    lines st
    ⟨by simp, fun _ r hr => by simp at hr⟩
    (by
      intro done raw s g t e u hP
      obtain ⟨hP1, hP2⟩ := hP
      constructor
      · rw [roundNumbers_lineStep]
        have : roundNumbers (withMeta s g t e u) = roundNumbers s := rfl
        rw [this, hP1]
        simp only [List.map_append, List.filterMap_append, List.map_cons, List.map_nil,
          List.filterMap_cons, List.filterMap_nil, List.append_assoc]
        cases headerNumber (trim raw) <;> rfl
      · intro hno r hr
        have hraw : phaseMarker (trim raw) = false := hno raw (by simp)
        rw [finalRounds_lineStep_of_not_marker _ _ hraw] at hr
        have : finalRounds (withMeta s g t e u) = finalRounds s := rfl
        rw [this] at hr
        have hold := hP2 (fun l hl => hno l (by simp [hl]))
        cases hh : headerNumber (trim raw) with
        | none =>
          simp only [hh, Option.toList, List.map_nil, List.append_nil] at hr
          exact hold r hr
        | some n =>
          simp only [hh, Option.toList, List.map_cons, List.map_nil] at hr
          rcases mem_drop_concat _ _ _ _ hr with hr | ⟨hr, _⟩
          · exact hold r hr
          · rw [hr])
  exact ⟨st2, hrun, hP1, hP2⟩

theorem toGameLog_rounds_drop (st : State) (k : Nat)
    (h : ∀ r ∈ (finalRounds st).drop k, r.phases = []) :
    ∀ r ∈ (toGameLog st).rounds.drop k, r.phases = [] := by
  intro r hr
  simp only [toGameLog, ← List.map_drop, List.mem_map] at hr
  obtain ⟨ro, hro, rfl⟩ := hr
  simp [resolveRound, h ro hro]

/-- C6 (amended): for every input none of whose lines opens a system announcement, the
numbers of the returned rounds are, in order and in number, the number values that `parseInt`
gives for the lines that after trimming read `第 N 回合` (so duplicate, out-of-order and
non-contiguous headers each give a round of their own); such a line is exactly `第 `, a
non-empty run of decimal digits and ` 回合`, and its number is the decimal value `N` of the
digits converted to a double: `N` itself when `N ≤ 2^53`; and wherever the lines are cut in
two, if no line of the second part is a phase marker, the rounds of the headers of the second
part have an empty list of phases. -/
theorem rounds_follow_headers (content : Str)
    (hsys : ∀ l ∈ jsSplit content "\n".toList, systemTest (trim l) = false) :
    ∃ g, parseLogContent content = some g ∧
      g.rounds.map Round.number =
        ((jsSplit content "\n".toList).map trim).filterMap headerNumber ∧
      (∀ l x, headerNumber l = some x ↔
        ∃ ds : Str, ds ≠ [] ∧ (∀ c ∈ ds, isDigit c = true) ∧
          l = "第 ".toList ++ ds ++ " 回合".toList ∧
          x = toNumber (Nat.ofDigits 10 ((ds.map fun c => c.toNat - 48).reverse))) ∧
      (∀ N : Nat, N ≤ 2 ^ 53 → toNumber N = JsNumber.int N) ∧
      (∀ pre post, jsSplit content "\n".toList = pre ++ post →
        (∀ l ∈ post, phaseMarker (trim l) = false) →
        ∀ r ∈ g.rounds.drop ((pre.map trim).filterMap headerNumber).length, r.phases = []) := by
  obtain ⟨st2, hrun, hnum, _⟩ := runLines_rounds (jsSplit content "\n".toList) initState
  refine ⟨toGameLog st2, ?_, ?_, ?_, toNumber_small, ?_⟩
  · simp only [parseLogContent, scan_eq_runLines content hsys, hrun, Option.map_some']
  · rw [toGameLog_rounds_number, hnum]
    rfl
  · intro l x
    rw [headerNumber_eq_some_iff]
    simp only [parseInt, digitsValue_eq]
  · intro pre post hsplit hno
    obtain ⟨s1, hrun1, hnum1, _⟩ := runLines_rounds pre initState
    obtain ⟨s2, hrun2, _, hph2⟩ := runLines_rounds post s1
    have hs2 : st2 = s2 := by
      rw [hsplit, runLines_append, hrun1, Option.some_bind, hrun2] at hrun
      exact (Option.some.inj hrun).symm
    subst hs2
    have hlen : (finalRounds s1).length = ((pre.map trim).filterMap headerNumber).length := by
      have : (roundNumbers s1).length = ((pre.map trim).filterMap headerNumber).length := by
        rw [hnum1]
        rfl
      simpa [roundNumbers] using this
    rw [← hlen]
    exact toGameLog_rounds_drop st2 _ (hph2 hno)

/-- C6, witness: four header-like lines, out of order, with a duplicate, leading zeros and a
number past `2^53`, one of them no header, and no phase marker: the rounds are numbered 2, 2,
7 and 9007199254740992 and have no phases. -/
theorem rounds_follow_headers_witness :
    ∃ g, parseLogContent
        "第 2 回合\n第 2 回合\n  第 007 回合 \n第 x 回合\n第 9007199254740993 回合".toList = some g ∧
      g.rounds.map Round.number =
        [JsNumber.int 2, JsNumber.int 2, JsNumber.int 7, JsNumber.int 9007199254740992] ∧
      ∀ r ∈ g.rounds, r.phases = [] :=
  (rounds_follow_headers
      "第 2 回合\n第 2 回合\n  第 007 回合 \n第 x 回合\n第 9007199254740993 回合".toList
      (by decide)).elim
    fun g h => ⟨g, h.1, h.2.1.trans (by decide), h.2.2.2.2 [] _ rfl (by decide)⟩

/-- C6, counterexample: the header `第 9007199254740993 回合` gives the round the number
9007199254740992, the nearest double, not the integer written in the header. -/
theorem roundsAreHeaderIntegers_fails :
    ¬ RoundsAreHeaderIntegers "第 9007199254740993 回合".toList := by
  rintro ⟨g, hg, h⟩
  have hparse : parseLogContent "第 9007199254740993 回合".toList =
      some { gameId := [], startTime := [], endTime := [], status := "进行中".toList,
             players := [],
             rounds := [{ number := .int 9007199254740992, phases := [] }] } := by rfl
  rw [hparse] at hg
  cases hg
  revert h
  decide

/-! ## Death propagation -/

theorem not_roundTest_of_mem (l : Str) (c : Char) (hc : c ∈ l) (h1 : isDigit c = false)
    (h2 : c ∉ "第  回合".toList) : roundTest l = false := by
  cases h : roundTest l with
  | false => rfl
  | true =>
    have hn : headerNumber l = some (parseInt ((digitsMatch l).getD [])) := by
      simp [headerNumber, h]
    obtain ⟨ds, _, hall, hl, _⟩ := (headerNumber_eq_some_iff l _).mp hn
    rw [hl] at hc
    simp only [List.mem_append] at hc
    rcases hc with (hc | hc) | hc
    · exact (h2 (by
        simp only [String.toList, List.mem_cons, List.mem_singleton] at hc ⊢
        tauto)).elim
    · rw [hall c hc] at h1
      exact absurd h1 (by decide)
    · exact (h2 (by
        simp only [String.toList, List.mem_cons, List.mem_singleton] at hc ⊢
        tauto)).elim

theorem mem_of_includes_cons (l pat : Str) (c : Char) (h : includes l (c :: pat) = true) :
    c ∈ l := by
  have hi : c :: pat <:+: l := (includes_iff_sub l _).mp h
  exact hi.subset (List.mem_cons_self c pat)

theorem not_roundTest_of_deathTest (l : Str) (h : deathTest l = true) : roundTest l = false := by
  have hm : '💀' ∈ l := by
    simp only [deathTest, Bool.or_eq_true] at h
    rcases h with h | h
    · exact mem_of_includes_cons l " 夜晚死亡".toList '💀' h
    · exact mem_of_includes_cons l " 白天死亡".toList '💀' h
  exact not_roundTest_of_mem l '💀' hm (by decide) (by decide)

theorem not_roundTest_of_phaseMarker (l : Str) (h : phaseMarker l = true) :
    roundTest l = false := by
  simp only [phaseMarker, Bool.or_eq_true, beq_iff_eq] at h
  rcases h with h | h <;> (subst h; decide)

theorem parsePhase_currentPhase_isSome (line : Str) (st : State)
    (h : phaseMarker line = true ∨ st.currentPhase.isSome = true) :
    (parsePhase line st).currentPhase.isSome = true := by
  unfold parsePhase
  split
  · rfl
  · split
    · rfl
    · rename_i h1 h2
      rcases h with h | h
      · simp only [phaseMarker, Bool.or_eq_true] at h
        rcases h with h | h
        · exact absurd h h1
        · exact absurd h h2
      · exact h

theorem roundStep_of_not_roundTest (line : Str) (st : State) (h : roundTest line = false) :
    roundStep line st = st := by
  simp [roundStep, h]

/-- The open phase when the death block of a line runs. -/
theorem lineStep_currentPhase (line : Str) (st : State) :
    (lineStep line st).currentPhase =
      (parsePhase line (roundStep line (parsePlayers line st))).currentPhase := by
  simp [lineStep]

theorem lineStep_currentPhase_isSome (line : Str) (st : State) (hr : roundTest line = false)
    (h : phaseMarker line = true ∨ st.currentPhase.isSome = true) :
    (lineStep line st).currentPhase.isSome = true := by
  rw [lineStep_currentPhase, roundStep_of_not_roundTest _ _ hr]
  apply parsePhase_currentPhase_isSome
  rcases h with h | h
  · exact Or.inl h
  · exact Or.inr (by simpa using h)

theorem names_of_deathStep (ns : List Str) (ps qs : List Player)
    (h : List.Forall₂ (DeathStep ns) ps qs) : qs.map Player.name = ps.map Player.name := by
  induction h with
  | nil => rfl
  | cons hpq _ ih => simp [hpq.1, ih]

theorem parseDeath_names (line : Str) (st : State) :
    (parseDeath line st).players.map Player.name = st.players.map Player.name :=
  names_of_deathStep _ _ _ (parseDeath_deathStep line st).1

theorem parseDeath_players_eq (line : Str) (st : State) :
    (parseDeath line st).players =
      if deathTest line = true ∧ (deathMatch line).isSome = true ∧
          st.currentPhase.isSome = true then
        (deathNames line).foldl markDead st.players
      else st.players := by
  unfold parseDeath deathNames
  by_cases ht : deathTest line = true
  · cases hm : deathMatch line with
    | none => simp [ht]
    | some m =>
      cases hp : st.currentPhase with
      | none => simp [ht]
      | some p => simp [ht]
  · simp [ht]

theorem lineStep_players (line : Str) (st : State) :
    (lineStep line st).players =
      if deathTest line = true ∧ (deathMatch line).isSome = true ∧
          (lineStep line st).currentPhase.isSome = true then
        (deathNames line).foldl markDead (parsePlayers line st).players
      else (parsePlayers line st).players := by
  rw [lineStep_currentPhase]
  unfold lineStep
  rw [parseDeath_players_eq]
  simp only [parseVote_currentPhase, parseFields_currentPhase, parseAction_currentPhase,
    parseVote_players, parseFields_players, parseAction_players, parsePhase_players,
    roundStep_players]

theorem foldl_markDead_names (ns : List Str) (ps : List Player) :
    (ns.foldl markDead ps).map Player.name = ps.map Player.name :=
  names_of_deathStep ns _ _ (deathStep_foldl ns ns (fun _ h => h) ps)

theorem lineStep_names (line : Str) (st : State) :
    (lineStep line st).players.map Player.name =
      (parsePlayers line st).players.map Player.name := by
  rw [lineStep_players]
  split
  · exact foldl_markDead_names _ _
  · rfl

theorem lineStep_names_mono (line : Str) (st : State) (P : Str)
    (h : P ∈ st.players.map Player.name) : P ∈ (lineStep line st).players.map Player.name := by
  rw [lineStep_names]
  unfold parsePlayers
  split
  · split
    · simp only [List.map_append, List.mem_append]
      exact Or.inl h
    · exact h
  · exact h

theorem lineStep_names_declares (l : Str) (st : State) (P : Str) (h : declares l P) :
    P ∈ (lineStep (trim l) st).players.map Player.name := by
  rw [lineStep_names]
  obtain ⟨hs, role, hm⟩ := h
  unfold parsePlayers
  rw [if_pos hs, hm]
  simp

theorem deadFirst_markDead_self (P : Str) (ps : List Player) (h : P ∈ ps.map Player.name) :
    DeadFirst P (markDead ps P) := by
  induction ps with
  | nil => simp at h
  | cons p ps ih =>
    by_cases hp : p.name = P
    · simp [DeadFirst, markDead, hp]
    · simp only [List.map_cons, List.mem_cons] at h
      have h2 : P ∈ ps.map Player.name := by
        rcases h with h | h
        · exact absurd h.symm hp
        · exact h
      have := ih h2
      simp only [DeadFirst] at this ⊢
      simpa [markDead, hp] using this

theorem deadFirst_markDead_keep (P n : Str) (ps : List Player) (h : DeadFirst P ps) :
    DeadFirst P (markDead ps n) := by
  induction ps with
  | nil => exact h
  | cons p ps ih =>
    by_cases hn : (p.name == n) = true
    · simp only [markDead, hn, if_true]
      by_cases hp : (p.name == P) = true
      · simp [DeadFirst, List.find?_cons, hp]
      · simp only [DeadFirst, List.find?_cons, hp] at h ⊢
        exact h
    · simp only [markDead, hn, Bool.false_eq_true, if_false]
      by_cases hp : (p.name == P) = true
      · simp only [DeadFirst, List.find?_cons, hp] at h ⊢
        exact h
      · have h2 : DeadFirst P ps := by
          simp only [DeadFirst, List.find?_cons, hp] at h ⊢
          exact h
        have := ih h2
        simp only [DeadFirst, List.find?_cons, hp] at this ⊢
        exact this

theorem deadFirst_foldl (P : Str) (ns : List Str) (ps : List Player)
    (h : DeadFirst P ps ∨ (P ∈ ns ∧ P ∈ ps.map Player.name)) :
    DeadFirst P (ns.foldl markDead ps) := by
  induction ns generalizing ps with
  | nil =>
    rcases h with h | h
    · exact h
    · simp at h
  | cons n ns ih =>
    simp only [List.foldl_cons]
    apply ih
    rcases h with h | ⟨hn, hp⟩
    · exact Or.inl (deadFirst_markDead_keep P n ps h)
    · simp only [List.mem_cons] at hn
      rcases hn with hn | hn
      · subst hn
        exact Or.inl (deadFirst_markDead_self _ ps hp)
      · refine Or.inr ⟨hn, ?_⟩
        have := foldl_markDead_names [n] ps
        simp only [List.foldl_cons, List.foldl_nil] at this
        rw [this]
        exact hp

theorem deadFirst_append (P : Str) (ps qs : List Player) (h : DeadFirst P ps) :
    DeadFirst P (ps ++ qs) := by
  simp only [DeadFirst, List.find?_append] at h ⊢
  cases hf : List.find? (fun q => q.name == P) ps with
  | none => simp [hf] at h
  | some q =>
    rw [hf] at h
    simpa using h

theorem deadFirst_parsePlayers (P line : Str) (st : State) (h : DeadFirst P st.players) :
    DeadFirst P (parsePlayers line st).players := by
  unfold parsePlayers
  split
  · split
    · exact deadFirst_append P _ _ h
    · exact h
  · exact h

theorem deadFirst_lineStep (P line : Str) (st : State) (h : DeadFirst P st.players) :
    DeadFirst P (lineStep line st).players := by
  rw [lineStep_players]
  split
  · exact deadFirst_foldl P _ _ (Or.inl (deadFirst_parsePlayers P line st h))
  · exact deadFirst_parsePlayers P line st h

theorem deadFirst_of_namesDead (P d : Str) (st : State) (hd : namesDead d P)
    (hp : P ∈ st.players.map Player.name) (hph : st.currentPhase.isSome = true) :
    DeadFirst P (lineStep (trim d) st).players := by
  obtain ⟨ht, hmem⟩ := hd
  have hm : (deathMatch (trim d)).isSome = true := by
    unfold deathNames at hmem
    cases hdm : deathMatch (trim d) with
    | none => simp [hdm] at hmem
    | some m => rfl
  have hcp : (lineStep (trim d) st).currentPhase.isSome = true :=
    lineStep_currentPhase_isSome _ _ (not_roundTest_of_deathTest _ ht) (Or.inr hph)
  rw [lineStep_players, if_pos ⟨ht, hm, hcp⟩]
  apply deadFirst_foldl
  refine Or.inr ⟨hmem, ?_⟩
  unfold parsePlayers
  split
  · split
    · simp only [List.map_append, List.mem_append]
      exact Or.inl hp
    · exact hp
  · exact hp

/-- C2 (amended): for every input none of whose lines opens a system announcement, if a
roster line declares `P` and a later death-marker line names `P` while a phase is open (a
phase marker comes before the death line with no round header in between), then the first
player named `P` of the returned document has `alive = false`. -/
theorem death_propagates_in_open_phase (content P : Str) (a b pre post : List Str) (ph d : Str)
    (hsys : ∀ l ∈ jsSplit content "\n".toList, systemTest (trim l) = false)
    (hlines : jsSplit content "\n".toList = pre ++ d :: post)
    (hroster : ∃ r ∈ pre, declares r P)
    (hpre : pre = a ++ ph :: b) (hph : phaseMarker (trim ph) = true)
    (hb : ∀ l ∈ b, roundTest (trim l) = false)
    (hd : namesDead d P) :
    ∃ g, parseLogContent content = some g ∧ DeadFirst P g.players := by
  obtain ⟨st1, hrun1, hQ1, hQ2⟩ := runLines_induct
    (fun done st => ((∃ r ∈ done, declares r P) → P ∈ st.players.map Player.name) ∧
      ((∃ a2 ph2 b2, done = a2 ++ ph2 :: b2 ∧ phaseMarker (trim ph2) = true ∧
          ∀ l ∈ b2, roundTest (trim l) = false) → st.currentPhase.isSome = true))
    pre initState
    ⟨fun h => by simp at h, fun h => by
      obtain ⟨a2, ph2, b2, h, _⟩ := h
      simp at h⟩
    (by
      intro done raw s g t e u hP
      obtain ⟨hP1, hP2⟩ := hP
      constructor
      · rintro ⟨r, hr, hdec⟩
        simp only [List.mem_append, List.mem_singleton] at hr
        rcases hr with hr | hr
        · exact lineStep_names_mono _ _ P (hP1 ⟨r, hr, hdec⟩)
        · subst hr
          exact lineStep_names_declares r _ P hdec
      · rintro ⟨a2, ph2, b2, hdone, hm, hno⟩
        rcases List.eq_nil_or_concat b2 with hb2 | ⟨b3, x, hb2⟩
        · subst hb2
          have h2 : done ++ [raw] = a2 ++ [ph2] := hdone
          obtain ⟨_, h3⟩ := List.append_inj' h2 rfl
          have hraw : raw = ph2 := by simpa using h3
          subst hraw
          exact lineStep_currentPhase_isSome _ _ (not_roundTest_of_phaseMarker _ hm) (Or.inl hm)
        · subst hb2
          have h2 : done ++ [raw] = (a2 ++ ph2 :: b3) ++ [x] := by
            rw [hdone]
            simp
          obtain ⟨h3, h4⟩ := List.append_inj' h2 rfl
          have hraw : raw = x := by simpa using h4
          subst hraw
          have hs : s.currentPhase.isSome = true :=
            hP2 ⟨a2, ph2, b3, h3, hm, fun l hl => hno l (by simp [hl])⟩
          exact lineStep_currentPhase_isSome _ _ (hno raw (by simp)) (Or.inr hs))
  obtain ⟨g, t, e, u, hpl⟩ := processLine_eq (trim d) st1
  have hdead : DeadFirst P (lineStep (trim d) (withMeta st1 g t e u)).players :=
    deadFirst_of_namesDead P d _ hd (hQ1 hroster) (hQ2 ⟨a, ph, b, hpre, hph, hb⟩)
  obtain ⟨st3, hrun3, hQ3⟩ := runLines_induct (fun _ st => DeadFirst P st.players) post _ hdead
    (by
      intro done raw s g t e u hP
      exact deadFirst_lineStep P _ _ hP)
  refine ⟨toGameLog st3, ?_, hQ3⟩
  simp only [parseLogContent, scan_eq_runLines content hsys, hlines, runLines_append, hrun1,
    Option.some_bind, runLines, hpl, hrun3, Option.map_some']

/-- C2, witness of the amended statement: a roster, a round, a night phase and a death
marker. -/
theorem death_propagates_in_open_phase_witness :
    ∃ g, parseLogContent
        "- Player1: werewolf\n第 1 回合\n【夜晚阶段】\n💀 夜晚死亡 Player2, Player1".toList = some g ∧
      DeadFirst "Player1".toList g.players :=
  death_propagates_in_open_phase _ "Player1".toList
    ["- Player1: werewolf".toList, "第 1 回合".toList] []
    ["- Player1: werewolf".toList, "第 1 回合".toList, "【夜晚阶段】".toList] []
    "【夜晚阶段】".toList "💀 夜晚死亡 Player2, Player1".toList
    (by decide) (by decide) ⟨"- Player1: werewolf".toList, by decide, by decide,
      "werewolf".toList, by decide⟩
    (by decide) (by decide) (by decide) ⟨by decide, by decide⟩

/-- C2, counterexample: the roster declares `Player1` and a later death marker names it, but
no phase is open, so the death block does nothing and `Player1` stays alive. -/
theorem deathPropagates_fails :
    ¬ DeathPropagates "- Player1: werewolf\n💀 夜晚死亡 Player1".toList "Player1".toList := by
  intro h
  obtain ⟨g, hg, hdead⟩ := h [] [] [] "- Player1: werewolf".toList "💀 夜晚死亡 Player1".toList
    (by decide) ⟨by decide, "werewolf".toList, by decide⟩ ⟨by decide, by decide⟩
  have hparse : parseLogContent "- Player1: werewolf\n💀 夜晚死亡 Player1".toList =
      some { gameId := [], startTime := [], endTime := [], status := "进行中".toList,
             players := [{ name := "Player1".toList, role := "werewolf".toList, alive := true }],
             rounds := [] } := by rfl
  rw [hparse] at hg
  cases hg
  unfold DeadFirst at hdead
  revert hdead
  decide

/-! ## Heaps -/

theorem length_modifyAt {α : Type} (f : α → α) (l : List α) (i : Nat) :
    (modifyAt f l i).length = l.length := by
  induction l generalizing i with
  | nil => rfl
  | cons x xs ih =>
    cases i with
    | zero => rfl
    | succ i => simp [modifyAt, ih]

theorem getElem?_modifyAt {α : Type} (f : α → α) (l : List α) (i j : Nat) :
    (modifyAt f l i)[j]? = if i = j then l[j]?.map f else l[j]? := by
  induction l generalizing i j with
  | nil => simp [modifyAt]
  | cons x xs ih =>
    cases i with
    | zero =>
      cases j with
      | zero => simp [modifyAt]
      | succ j => simp [modifyAt]
    | succ i =>
      cases j with
      | zero => simp [modifyAt]
      | succ j => simp [modifyAt, ih]

theorem hasEntry_pushEntry (heap : List PhaseObj) (cp : Option Nat) (e2 : Entry) (p : Nat)
    (e : Entry) (h : HasEntry heap p e) : HasEntry (pushEntry cp e2 heap) p e := by
  obtain ⟨ph, hph, he⟩ := h
  cases cp with
  | none => exact ⟨ph, hph, he⟩
  | some q =>
    simp only [HasEntry, pushEntry, getElem?_modifyAt, hph]
    by_cases hq : q = p
    · simp [hq, he]
    · simp [hq, he]

theorem hasEntry_pushEntry_self (heap : List PhaseObj) (p : Nat) (e : Entry)
    (hp : p < heap.length) : HasEntry (pushEntry (some p) e heap) p e := by
  simp only [HasEntry, pushEntry, getElem?_modifyAt, if_true]
  refine ⟨{ heap[p] with actions := heap[p].actions ++ [e] }, ?_, by simp⟩
  simp [List.getElem?_eq_getElem hp]

theorem hasEntry_append (heap : List PhaseObj) (x : PhaseObj) (p : Nat) (e : Entry)
    (h : HasEntry heap p e) : HasEntry (heap ++ [x]) p e := by
  obtain ⟨ph, hph, he⟩ := h
  refine ⟨ph, ?_, he⟩
  have hlt : p < heap.length := by
    by_contra hge
    rw [List.getElem?_eq_none (by omega)] at hph
    exact absurd hph (by simp)
  rw [List.getElem?_append_left hlt]
  exact hph

theorem length_pushEntry (cp : Option Nat) (e : Entry) (heap : List PhaseObj) :
    (pushEntry cp e heap).length = heap.length := by
  cases cp with
  | none => rfl
  | some p => exact length_modifyAt _ _ _

theorem hasEntry_parsePhase (line : Str) (st : State) (p : Nat) (e : Entry)
    (h : HasEntry st.phaseHeap p e) : HasEntry (parsePhase line st).phaseHeap p e := by
  unfold parsePhase
  split
  · exact hasEntry_append _ _ _ _ h
  · split
    · exact hasEntry_append _ _ _ _ h
    · exact h

theorem hasEntry_parseAction (line : Str) (st : State) (p : Nat) (e : Entry)
    (h : HasEntry st.phaseHeap p e) : HasEntry (parseAction line st).phaseHeap p e := by
  unfold parseAction
  split
  · split
    · exact hasEntry_pushEntry _ _ _ _ _ h
    · exact h
  · exact h

theorem hasEntry_parseVote (line : Str) (st : State) (p : Nat) (e : Entry)
    (h : HasEntry st.phaseHeap p e) : HasEntry (parseVote line st).phaseHeap p e := by
  unfold parseVote
  split
  · split
    · exact hasEntry_pushEntry st.phaseHeap (some _) _ p e h
    · exact h
  · exact h

theorem hasEntry_parseDeath (line : Str) (st : State) (p : Nat) (e : Entry)
    (h : HasEntry st.phaseHeap p e) : HasEntry (parseDeath line st).phaseHeap p e := by
  unfold parseDeath
  split
  · split
    · exact hasEntry_pushEntry st.phaseHeap (some _) _ p e h
    · exact h
  · exact h

theorem hasEntry_lineStep (line : Str) (st : State) (p : Nat) (e : Entry)
    (h : HasEntry st.phaseHeap p e) : HasEntry (lineStep line st).phaseHeap p e := by
  unfold lineStep
  apply hasEntry_parseDeath
  apply hasEntry_parseVote
  rw [parseFields_phaseHeap]
  apply hasEntry_parseAction
  apply hasEntry_parsePhase
  rw [roundStep_phaseHeap, parsePlayers_phaseHeap]
  exact h

/-! ## Lines of plain text -/

theorem head_of_startsWith (l pat : Str) (c : Char) (h : startsWith l (c :: pat) = true) :
    ∃ rest, l = c :: rest := by
  cases l with
  | nil => simp [startsWith, List.isPrefixOf] at h
  | cons d rest =>
    simp only [startsWith, List.isPrefixOf, Bool.and_eq_true, beq_iff_eq] at h
    exact ⟨rest, by rw [h.1]⟩

theorem startsWith_bracket_of_timeTest (l : Str) (h : timeTest l = true) :
    ∃ rest, l = '[' :: rest := by
  unfold timeTest timeAt at h
  split at h
  · rename_i o a b p c d q e f z htake
    split at h
    · rename_i hc
      simp only [Bool.and_eq_true, beq_iff_eq] at hc
      have ho : o = '[' := hc.1.1.1.1.1.1.1.1.1
      cases l with
      | nil => simp at htake
      | cons x rest =>
        simp only [List.take_succ_cons, List.cons.injEq] at htake
        exact ⟨rest, by rw [htake.1, ho]⟩
    · simp at h
  · simp at h

theorem timeTest_of_not_bracket (l : Str) (h : startsWith l "[".toList = false) :
    timeTest l = false := by
  cases ht : timeTest l with
  | false => rfl
  | true =>
    obtain ⟨rest, hl⟩ := startsWith_bracket_of_timeTest l ht
    subst hl
    simp [startsWith, List.isPrefixOf] at h

theorem parseAction_of_not_timeTest (line : Str) (st : State) (h : timeTest line = false) :
    parseAction line st = st := by
  simp [parseAction, h]

theorem parsePlayers_of_not_roster (line : Str) (st : State)
    (h : startsWith line "- Player".toList = false) : parsePlayers line st = st := by
  simp only [parsePlayers, h, Bool.false_eq_true, if_false]

theorem symbolTest_of_phaseMarker (l : Str) (h : phaseMarker l = true) : symbolTest l = true := by
  simp only [phaseMarker, Bool.or_eq_true, beq_iff_eq] at h
  rcases h with h | h <;> (subst h; decide)

theorem parsePhase_of_not_symbol (line : Str) (st : State) (h : symbolTest line = false) :
    parsePhase line st = st := by
  apply parsePhase_of_not_marker
  cases hm : phaseMarker line with
  | false => rfl
  | true =>
    rw [symbolTest_of_phaseMarker line hm] at h
    exact absurd h (by decide)

theorem plainLine_parts (l : Str) (h : plainLine l = true) :
    startsWith l "[".toList = false ∧ startsWith l "- Player".toList = false ∧
    roundTest l = false ∧ symbolTest l = false ∧ startsWith l "(心声)".toList = false ∧
    startsWith l "(表现)".toList = false ∧ startsWith l "(发言)".toList = false ∧
    keyword l = false ∧ systemTest l = false ∧ continuationLine l = true := by
  have h2 := h
  simp only [plainLine, continuationLine, Bool.and_eq_true, Bool.not_eq_true'] at h
  obtain ⟨⟨⟨⟨⟨⟨⟨⟨⟨⟨⟨h1, _⟩, _⟩, _⟩, h5⟩, h6⟩, h7⟩, h8⟩, h9⟩, h10⟩, h11⟩, h12⟩ := h
  refine ⟨h1, h5, h6, h7, h8, h9, h10, h11, h12, ?_⟩
  simp only [plainLine, Bool.and_eq_true] at h2
  exact h2.1.1.1.1.1

theorem lineStep_plain (l : Str) (st : State) (h : plainLine l = true) :
    lineStep l st = parseDeath l (parseVote l (parseFields l st)) := by
  obtain ⟨h1, h2, h3, h4, _⟩ := plainLine_parts l h
  unfold lineStep
  rw [parsePlayers_of_not_roster _ _ h2, roundStep_of_not_roundTest _ _ h3,
    parsePhase_of_not_symbol _ _ h4, parseAction_of_not_timeTest _ _ (timeTest_of_not_bracket l h1)]

theorem continueField_none (l : Str) : continueField none l = fun o => o := by
  funext o
  rfl

theorem modifyAt_id {α : Type} (l : List α) (i : Nat) : modifyAt (fun o => o) l i = l := by
  induction l generalizing i with
  | nil => rfl
  | cons x xs ih =>
    cases i with
    | zero => rfl
    | succ i => simp [modifyAt, ih]

theorem parseFields_plain (l : Str) (st : State) (a : Nat) (h : plainLine l = true)
    (ha : st.currentAction = some a) :
    (parseFields l st).actionHeap =
      modifyAt (continueField st.currentLogState l) st.actionHeap a ∧
    (parseFields l st).currentLogState = st.currentLogState := by
  obtain ⟨_, _, _, _, h5, h6, h7, h8, _, h10⟩ := plainLine_parts l h
  unfold parseFields
  simp only [ha, h5, h6, h7, h8, h10, Bool.false_eq_true, if_false, Bool.and_true]
  cases hs : st.currentLogState with
  | none =>
    simp only [Option.isSome_none, Bool.false_eq_true, if_false, continueField_none, modifyAt_id,
      hs, and_self]
  | some s => simp only [Option.isSome_some, if_true, and_self]

/-- What a run of plain lines does while an action is current: each line is appended to the
field that `currentLogState` names, and the scan variables stay as they are. -/
theorem runLines_plain (cs : List Str) (st : State) (a : Nat)
    (hcs : ∀ c ∈ cs, plainLine (trim c) = true) (ha : st.currentAction = some a) :
    ∃ st2, runLines cs st = some st2 ∧ st2.currentAction = some a ∧
      st2.currentLogState = st.currentLogState ∧ st2.currentPhase = st.currentPhase ∧
      st2.actionHeap[a]? = st.actionHeap[a]?.map (fun o =>
        cs.foldl (fun o c => continueField st.currentLogState (trim c) o) o) ∧
      (∀ p e, HasEntry st.phaseHeap p e → HasEntry st2.phaseHeap p e) := by
  induction cs generalizing st with
  | nil => exact ⟨st, rfl, ha, rfl, rfl, by simp, fun _ _ h => h⟩
  | cons c cs ih =>
    obtain ⟨g, t, e, u, hpl⟩ := processLine_eq (trim c) st
    have hc : plainLine (trim c) = true := hcs c (List.mem_cons_self c cs)
    rw [lineStep_plain _ _ hc] at hpl
    have hf := parseFields_plain (trim c) (withMeta st g t e u) a hc (by simpa using ha)
    obtain ⟨st2, hrun, h1, h2, h3, h4, h5⟩ :=
      ih (parseDeath (trim c) (parseVote (trim c) (parseFields (trim c) (withMeta st g t e u))))
        (fun x hx => hcs x (List.mem_cons_of_mem c hx)) (by simpa using ha)
    refine ⟨st2, ?_, h1, ?_, ?_, ?_, ?_⟩
    · simp only [runLines, hpl, Option.some_bind, hrun]
    · rw [h2]
      simp [hf.2]
    · rw [h3]
      simp
    · rw [h4]
      simp only [parseDeath_actionHeap, parseVote_actionHeap, parseDeath_currentLogState,
        parseVote_currentLogState, hf.1, hf.2, withMeta_currentLogState, withMeta_actionHeap,
        getElem?_modifyAt, if_true, List.foldl_cons, Option.map_map]
      rfl
    · intro p e2 he
      apply h5
      apply hasEntry_parseDeath
      apply hasEntry_parseVote
      rw [parseFields_phaseHeap]
      exact he

/-! ## Action headers and field markers -/

theorem parseAction_header (h : Str) (st : State) (t : Str) (m : Str × Str)
    (hT : timeTest h = true) (ht : timeMatch h = some t) (hm : actionMatch h = some m) :
    parseAction h st =
      { st with actionHeap := st.actionHeap ++ [newAction t m.1 m.2],
                currentAction := some st.actionHeap.length,
                phaseHeap := pushEntry st.currentPhase (.action st.actionHeap.length)
                  st.phaseHeap } := by
  simp only [parseAction, hT, ht, hm, if_true]

theorem lineStep_header_eq (h : Str) (st : State) (hT : timeTest h = true) :
    lineStep h st = parseDeath h (parseVote h (parseFields h (parseAction h st))) := by
  obtain ⟨rest, hl⟩ := startsWith_bracket_of_timeTest h hT
  have h1 : startsWith h "- Player".toList = false := by
    subst hl
    simp [startsWith, List.isPrefixOf]
  have h2 : roundTest h = false :=
    not_roundTest_of_mem h '[' (by simp [hl]) (by decide) (by decide)
  have h3 : symbolTest h = false := by
    subst hl
    simp [symbolTest]
  unfold lineStep
  rw [parsePlayers_of_not_roster _ _ h1, roundStep_of_not_roundTest _ _ h2,
    parsePhase_of_not_symbol _ _ h3]

/-- What an action-header line does: a fresh action with empty text fields becomes current and
is pushed on the open phase; `currentLogState` is left as it was unless the header line holds
a vote, inspect or use keyword. -/
theorem lineStep_header (h : Str) (st : State) (t : Str) (m : Str × Str)
    (hT : timeTest h = true) (ht : timeMatch h = some t) (hm : actionMatch h = some m) :
    (lineStep h st).currentAction = some st.actionHeap.length ∧
    (lineStep h st).currentLogState =
      (if keyword h then some LogState.details else st.currentLogState) ∧
    (lineStep h st).currentPhase = st.currentPhase ∧
    (lineStep h st).actionHeap[st.actionHeap.length]? =
      some { newAction t m.1 m.2 with details := if keyword h then h else [] } ∧
    (∀ p e, HasEntry st.phaseHeap p e → HasEntry (lineStep h st).phaseHeap p e) ∧
    (∀ p, st.currentPhase = some p → p < st.phaseHeap.length →
      HasEntry (lineStep h st).phaseHeap p (.action st.actionHeap.length)) := by
  obtain ⟨rest, hl⟩ := startsWith_bracket_of_timeTest h hT
  have hs1 : startsWith h "(心声)".toList = false := by
    subst hl
    simp [startsWith, List.isPrefixOf]
  have hs2 : startsWith h "(表现)".toList = false := by
    subst hl
    simp [startsWith, List.isPrefixOf]
  have hs3 : startsWith h "(发言)".toList = false := by
    subst hl
    simp [startsWith, List.isPrefixOf]
  have hc : continuationLine h = false := by
    subst hl
    simp [continuationLine, startsWith, List.isPrefixOf]
  have hfields : (parseFields h (parseAction h st)).currentLogState =
        (if keyword h then some LogState.details else st.currentLogState) ∧
      (parseFields h (parseAction h st)).actionHeap[st.actionHeap.length]? =
        some { newAction t m.1 m.2 with details := if keyword h then h else [] } := by
    rw [parseAction_header h st t m hT ht hm]
    unfold parseFields
    simp only [hs1, hs2, hs3, hc, Bool.false_eq_true, if_false, Bool.and_false]
    by_cases hk : keyword h = true
    · simp only [hk, if_true, getElem?_modifyAt, List.getElem?_concat_length, Option.map_some',
        true_and]
    · simp only [hk, Bool.false_eq_true, if_false, List.getElem?_concat_length, true_and]
      rfl
  rw [lineStep_header_eq h st hT]
  refine ⟨?_, ?_, ?_, ?_, ?_, ?_⟩
  · simp [parseAction_header h st t m hT ht hm]
  · simp [hfields.1]
  · simp
  · simp [hfields.2]
  · intro p e he
    apply hasEntry_parseDeath
    apply hasEntry_parseVote
    rw [parseFields_phaseHeap]
    exact hasEntry_parseAction _ _ _ _ he
  · intro p hp hlt
    apply hasEntry_parseDeath
    apply hasEntry_parseVote
    rw [parseFields_phaseHeap, parseAction_header h st t m hT ht hm, hp]
    exact hasEntry_pushEntry_self _ _ _ hlt

/-- What a `(发言)` line does while an action is current: it sets the speech of that action to
the trimmed rest of the line and opens the speech field. -/
theorem lineStep_speech (l s : Str) (st : State) (a : Nat)
    (hl : l = "(发言)".toList ++ s) (ha : st.currentAction = some a) :
    (lineStep l st).currentAction = some a ∧
    (lineStep l st).currentLogState = some LogState.speech ∧
    (lineStep l st).currentPhase = st.currentPhase ∧
    (lineStep l st).actionHeap[a]? = st.actionHeap[a]?.map (fun o => { o with speech := trim s }) ∧
    (∀ p e, HasEntry st.phaseHeap p e → HasEntry (lineStep l st).phaseHeap p e) := by
  have h1 : startsWith l "- Player".toList = false := by
    subst hl
    simp [startsWith, List.isPrefixOf]
  have h2 : roundTest l = false :=
    not_roundTest_of_mem l '(' (by simp [hl]) (by decide) (by decide)
  have h3 : symbolTest l = false := by
    subst hl
    simp [symbolTest]
  have h4 : timeTest l = false := by
    apply timeTest_of_not_bracket
    subst hl
    simp [startsWith, List.isPrefixOf]
  have hs1 : startsWith l "(心声)".toList = false := by
    subst hl
    simp [startsWith, List.isPrefixOf]
  have hs2 : startsWith l "(表现)".toList = false := by
    subst hl
    simp [startsWith, List.isPrefixOf]
  have hs3 : startsWith l "(发言)".toList = true := by
    subst hl
    simp [startsWith, List.isPrefixOf]
  have hsub : substring l 4 = s := by
    subst hl
    simp [substring]
  have hstep : lineStep l st = parseDeath l (parseVote l (parseFields l st)) := by
    unfold lineStep
    rw [parsePlayers_of_not_roster _ _ h1, roundStep_of_not_roundTest _ _ h2,
      parsePhase_of_not_symbol _ _ h3, parseAction_of_not_timeTest _ _ h4]
  have hfields : (parseFields l st).currentLogState = some LogState.speech ∧
      (parseFields l st).actionHeap =
        modifyAt (fun o => { o with speech := trim s }) st.actionHeap a := by
    unfold parseFields
    simp only [ha, hs1, hs2, hs3, hsub, Bool.false_eq_true, if_false, if_true, and_self]
  rw [hstep]
  refine ⟨by simpa using ha, by simp [hfields.1], by simp, ?_, ?_⟩
  · simp [hfields.2, getElem?_modifyAt]
  · intro p e he
    apply hasEntry_parseDeath
    apply hasEntry_parseVote
    rw [parseFields_phaseHeap]
    exact he

/-! ## Multi-line fields -/

theorem foldl_continueField_speech (cs : List Str) (o : Action) :
    cs.foldl (fun o c => continueField (some LogState.speech) (trim c) o) o =
      { o with speech := o.speech ++ (cs.map fun c => '\n' :: trim c).flatten } := by
  induction cs generalizing o with
  | nil => simp
  | cons c cs ih =>
    simp only [List.foldl_cons]
    rw [ih]
    simp [continueField]

theorem plainLine_nil : plainLine [] = true := by decide

/-- C3 (amended): from every state with an open phase, an action header, a `(发言)` line with
text `s`, plain lines `cs` and a blank line give the new action, pushed on the open phase, the
speech `s` followed by each line of `cs` after a line break and then one more line break: the
blank line is appended as an empty continuation line and does not close the field. -/
theorem speech_accumulates (fuel : Nat) (st : State) (p : Nat) (header sp blank s : Str)
    (cs : List Str) (t : Str) (m : Str × Str)
    (hfuel : cs.length + 3 < fuel)
    (hp : st.currentPhase = some p) (hlt : p < st.phaseHeap.length)
    (hT : timeTest (trim header) = true) (ht : timeMatch (trim header) = some t)
    (hm : actionMatch (trim header) = some m) (hhsys : systemTest (trim header) = false)
    (hsp : trim sp = "(发言)".toList ++ s) (hspsys : systemTest (trim sp) = false)
    (hcs : ∀ c ∈ cs, plainLine (trim c) = true) (hblank : trim blank = []) :
    ∃ st2 a, mainLoop fuel (header :: sp :: cs ++ [blank]) st = some st2 ∧
      st2.currentAction = some st.actionHeap.length ∧
      st2.actionHeap[st.actionHeap.length]? = some a ∧
      a.time = t ∧ a.type = m.1 ∧ a.player = m.2 ∧
      a.speech = trim s ++ (cs.map fun c => '\n' :: trim c).flatten ++ ['\n'] ∧
      HasEntry st2.phaseHeap p (.action st.actionHeap.length) := by
  have hplain : ∀ c ∈ cs ++ [blank], plainLine (trim c) = true := by
    intro c hc
    simp only [List.mem_append, List.mem_singleton] at hc
    rcases hc with hc | hc
    · exact hcs c hc
    · rw [hc, hblank]
      exact plainLine_nil
  have hnosys : ∀ l ∈ header :: sp :: cs ++ [blank], systemTest (trim l) = false := by
    intro l hl
    simp only [List.cons_append, List.mem_cons] at hl
    rcases hl with hl | hl | hl
    · rw [hl]; exact hhsys
    · rw [hl]; exact hspsys
    · exact (plainLine_parts _ (hplain l hl)).2.2.2.2.2.2.2.2.1
  rw [mainLoop_eq_runLines fuel _ st (by simp; omega) hnosys]
  obtain ⟨g1, t1, e1, u1, hpl1⟩ := processLine_eq (trim header) st
  obtain ⟨hA1, _, hA3, hA4, hA5, hA6⟩ :=
    lineStep_header (trim header) (withMeta st g1 t1 e1 u1) t m hT ht hm
  obtain ⟨g2, t2, e2, u2, hpl2⟩ :=
    processLine_eq (trim sp) (lineStep (trim header) (withMeta st g1 t1 e1 u1))
  obtain ⟨hB1, hB2, _, hB4, hB5⟩ := lineStep_speech (trim sp) s
    (withMeta (lineStep (trim header) (withMeta st g1 t1 e1 u1)) g2 t2 e2 u2)
    st.actionHeap.length hsp (by simpa using hA1)
  obtain ⟨st2, hrun, hC1, _, _, hC4, hC5⟩ := runLines_plain (cs ++ [blank]) _ st.actionHeap.length
    hplain hB1
  have hact : st2.actionHeap[st.actionHeap.length]? =
      some { newAction t m.1 m.2 with
        details := (if keyword (trim header) then trim header else []),
        speech := trim s ++ (cs.map fun c => '\n' :: trim c).flatten ++ ['\n'] } := by
    rw [hC4, hB2, hB4]
    simp only [withMeta_actionHeap] at hA4 ⊢
    rw [hA4]
    simp only [Option.map_some', foldl_continueField_speech, List.map_append, List.map_cons,
      List.map_nil, List.flatten_append, List.flatten_cons, List.flatten_nil, hblank,
      List.append_nil, List.append_assoc]
  refine ⟨st2, _, ?_, hC1, hact, rfl, rfl, rfl, rfl, ?_⟩
  · simp only [List.cons_append, runLines, hpl1, hpl2, Option.some_bind]
    exact hrun
  · apply hC5
    apply hB5
    simp only [withMeta_phaseHeap]
    exact hA6 p (by simpa using hp) (by simpa using hlt)

/-- C3, witness of the amended statement: `(发言) Hello`, `world` and a blank line. -/
theorem speech_accumulates_witness :
    ∃ st2 a, mainLoop 5 ("[12:00:00] 公开发言 | Player1".toList :: "(发言) Hello".toList ::
        ["world".toList] ++ [[]]) nightState = some st2 ∧
      st2.currentAction = some nightState.actionHeap.length ∧
      st2.actionHeap[nightState.actionHeap.length]? = some a ∧
      a.time = "12:00:00".toList ∧ a.type = "公开发言".toList ∧ a.player = "Player1".toList ∧
      a.speech = trim " Hello".toList ++
        (["world".toList].map fun c => '\n' :: trim c).flatten ++ ['\n'] ∧
      HasEntry st2.phaseHeap 0 (.action nightState.actionHeap.length) :=
  speech_accumulates 5 nightState 0 "[12:00:00] 公开发言 | Player1".toList "(发言) Hello".toList []
    " Hello".toList ["world".toList] "12:00:00".toList ("公开发言".toList, "Player1".toList)
    (by decide) rfl (by decide) (by decide) (by decide) (by decide) (by decide) (by decide)
    (by decide) (by decide) (by decide)

/-- C3, counterexample: in the state that a roster line, `第 1 回合` and `【夜晚阶段】` lead to,
after an action header, `(发言) Hello`, `world` and a blank line the speech is `Hello`, a line
break, `world` and one more line break, not `Hello`, a line break, `world`. -/
theorem accumulatesUntilBlank_fails :
    scan "- Player1: werewolf\n第 1 回合\n【夜晚阶段】".toList = some nightState ∧
    ¬ AccumulatesUntilBlank nightState "[12:00:00] 公开发言 | Player1".toList
      "(发言) Hello".toList ["world".toList] [] " Hello".toList := by
  refine ⟨by rfl, ?_⟩
  rintro ⟨st2, a, hrun, ha, hs⟩
  have hev : ((mainLoop 5 ("[12:00:00] 公开发言 | Player1".toList :: "(发言) Hello".toList ::
      ["world".toList] ++ [[]]) nightState).bind fun s => s.actionHeap[0]?).map Action.speech =
      some "Hello\nworld\n".toList := by rfl
  have hrun2 : mainLoop 5 ("[12:00:00] 公开发言 | Player1".toList :: "(发言) Hello".toList ::
      ["world".toList] ++ [[]]) nightState = some st2 := hrun
  have ha2 : st2.actionHeap[0]? = some a := ha
  rw [hrun2, Option.some_bind, ha2, Option.map_some', hs] at hev
  revert hev
  decide

/-! ## The open field across action headers -/

theorem foldl_continueField (L : Option LogState) (cs : List Str) (o : Action) :
    cs.foldl (fun o c => continueField L (trim c) o) o =
      { o with
        thought := o.thought ++
          (if L = some LogState.thought then (cs.map fun c => '\n' :: trim c).flatten else []),
        behavior := o.behavior ++
          (if L = some LogState.behavior then (cs.map fun c => '\n' :: trim c).flatten else []),
        speech := o.speech ++
          (if L = some LogState.speech then (cs.map fun c => '\n' :: trim c).flatten else []) } := by
  induction cs generalizing o with
  | nil => simp
  | cons c cs ih =>
    simp only [List.foldl_cons]
    rw [ih]
    cases L with
    | none => simp [continueField]
    | some l => cases l <;> simp [continueField]

/-- C4 (amended): an action header does not reset the open field.  From every state of the
scan, a `[HH:MM:SS] Type | Player` line followed by plain lines `cs` leaves as current action
a new action with the time, type and player of the header, and `currentLogState` as it was
before the header (or `details` when the header line holds a vote, inspect or use keyword);
the field of the new action that this state names holds each line of `cs` after a line break,
and its other text fields are empty.  So the thought, behavior and speech of the new action
are empty right after the header, and stay empty under plain lines only when no field, or
`details`, was open. -/
theorem header_keeps_open_field (fuel : Nat) (st : State) (header : Str) (cs : List Str)
    (t : Str) (m : Str × Str)
    (hfuel : cs.length + 1 < fuel)
    (hT : timeTest (trim header) = true) (ht : timeMatch (trim header) = some t)
    (hm : actionMatch (trim header) = some m) (hsys : systemTest (trim header) = false)
    (hcs : ∀ c ∈ cs, plainLine (trim c) = true) :
    ∃ st2, mainLoop fuel (header :: cs) st = some st2 ∧
      st2.currentAction = some st.actionHeap.length ∧
      st2.currentLogState =
        (if keyword (trim header) then some LogState.details else st.currentLogState) ∧
      st2.actionHeap[st.actionHeap.length]? =
        some { time := t, type := m.1, player := m.2,
               thought :=
                 if keyword (trim header) = false ∧ st.currentLogState = some LogState.thought
                 then (cs.map fun c => '\n' :: trim c).flatten else [],
               behavior :=
                 if keyword (trim header) = false ∧ st.currentLogState = some LogState.behavior
                 then (cs.map fun c => '\n' :: trim c).flatten else [],
               speech :=
                 if keyword (trim header) = false ∧ st.currentLogState = some LogState.speech
                 then (cs.map fun c => '\n' :: trim c).flatten else [],
               details := if keyword (trim header) then trim header else [] } := by
  have hnosys : ∀ l ∈ header :: cs, systemTest (trim l) = false := by
    intro l hl
    simp only [List.mem_cons] at hl
    rcases hl with hl | hl
    · rw [hl]; exact hsys
    · exact (plainLine_parts _ (hcs l hl)).2.2.2.2.2.2.2.2.1
  rw [mainLoop_eq_runLines fuel _ st (by simp; omega) hnosys]
  obtain ⟨g1, t1, e1, u1, hpl1⟩ := processLine_eq (trim header) st
  obtain ⟨hA1, hA2, _, hA4, _, _⟩ :=
    lineStep_header (trim header) (withMeta st g1 t1 e1 u1) t m hT ht hm
  obtain ⟨st2, hrun, hC1, hC2, _, hC4, _⟩ := runLines_plain cs _ st.actionHeap.length hcs
    (by simpa using hA1)
  refine ⟨st2, ?_, hC1, ?_, ?_⟩
  · simp only [runLines, hpl1, Option.some_bind]
    exact hrun
  · rw [hC2, hA2]
    rfl
  · rw [hC4, hA2]
    simp only [withMeta_actionHeap] at hA4
    rw [hA4]
    simp only [Option.map_some', foldl_continueField, withMeta_currentLogState, newAction,
      List.nil_append, Option.some.injEq]
    by_cases hk : keyword (trim header) = true
    · simp [hk]
    · have hk2 : keyword (trim header) = false := by simpa using hk
      simp [hk2]

/-- C4, witness of the amended statement: in `speechOpenState` a second header followed by
the plain line `plain` leaves a new action whose speech is a line break and `plain`. -/
theorem header_keeps_open_field_witness :
    ∃ st2, mainLoop 3 ["[12:00:05] 公开发言 | Player2".toList, "plain".toList]
        speechOpenState = some st2 ∧
      st2.currentAction = some 1 ∧
      st2.currentLogState = some LogState.speech ∧
      st2.actionHeap[1]? =
        some { time := "12:00:05".toList, type := "公开发言".toList, player := "Player2".toList,
               thought := [], behavior := [], speech := "\nplain".toList, details := [] } :=
  (header_keeps_open_field 3 speechOpenState "[12:00:05] 公开发言 | Player2".toList
      ["plain".toList] "12:00:05".toList ("公开发言".toList, "Player2".toList)
      (by decide) (by decide) (by decide) (by decide) (by decide) (by decide)).elim
    fun st2 h => ⟨st2, h.1, h.2.1, h.2.2.1.trans (by decide), h.2.2.2.trans (by decide)⟩

/-- C4, counterexample: `speechOpenState` is the state after a round header, a phase marker,
an action header and `(发言) hi`; a second action header followed by the plain line `plain`
gives the new action the speech made of a line break and `plain`, not an empty one. -/
theorem headerResetsField_fails :
    scan "第 1 回合\n【白天阶段】\n[12:00:00] 公开发言 | Player1\n(发言) hi".toList =
      some speechOpenState ∧
    ¬ HeaderResetsField speechOpenState "[12:00:05] 公开发言 | Player2".toList
      ["plain".toList] := by
  refine ⟨by rfl, ?_⟩
  rintro ⟨st2, a, hrun, ha, _, _, hs⟩
  have hev : ((mainLoop 3 ["[12:00:05] 公开发言 | Player2".toList, "plain".toList]
      speechOpenState).bind fun s => s.actionHeap[1]?).map Action.speech =
      some "\nplain".toList := by rfl
  have hrun2 : mainLoop 3 ["[12:00:05] 公开发言 | Player2".toList, "plain".toList]
      speechOpenState = some st2 := hrun
  have ha2 : st2.actionHeap[1]? = some a := ha
  rw [hrun2, Option.some_bind, ha2, Option.map_some', hs] at hev
  revert hev
  decide

/-! ## System announcements -/

/-- C5, evaluation at the failing input: the action header that stops the collection of a
system announcement is stepped over by the loop increment, so the day phase holds the system
event alone; with a blank line in front of it the same header is recorded. -/
theorem announcement_drops_next_header :
    (parseLogContent
      "第 1 回合\n【白天阶段】\n📢 系统公告\n天亮了\n[12:00:00] 公开发言 | Player1".toList).map
        GameLog.rounds =
      some [{ number := .int 1, phases := [{ type := .day, actions := [
        .event .system "天亮了".toList] }] }] ∧
    (parseLogContent
      "第 1 回合\n【白天阶段】\n📢 系统公告\n天亮了\n\n[12:00:00] 公开发言 | Player1".toList).map
        GameLog.rounds =
      some [{ number := .int 1, phases := [{ type := .day, actions := [
        .event .system "天亮了".toList,
        .normal (newAction "12:00:00".toList "公开发言".toList "Player1".toList)] }] }] := by
  constructor
  · rfl
  · rfl

/-! ## Ownership of phases -/

theorem mem_of_mem_collectAnnouncement (ls : List Str) (acc : Str) (l : Str)
    (h : l ∈ (collectAnnouncement ls acc).2) : l ∈ ls := by
  induction ls generalizing acc with
  | nil => simp [collectAnnouncement] at h
  | cons x xs ih =>
    simp only [collectAnnouncement] at h
    split at h
    · exact List.mem_cons_of_mem x (ih _ h)
    · exact h

theorem lineStep_no_round (line : Str) (st : State) (hr : roundTest line = false)
    (h1 : st.currentRound = none) (h2 : st.rounds = []) :
    (lineStep line st).currentRound = none ∧ (lineStep line st).rounds = [] := by
  unfold lineStep
  simp only [parseDeath_currentRound, parseVote_currentRound, parseFields_currentRound,
    parseAction_currentRound, parseDeath_rounds, parseVote_rounds, parseFields_rounds,
    parseAction_rounds, parsePhase_rounds, roundStep_of_not_roundTest _ _ hr,
    parsePlayers_rounds, h2, and_true]
  unfold parsePhase
  split
  · simp [openPhase, h1]
  · split
    · simp [openPhase, h1]
    · simp [h1]

theorem mainLoop_no_round (fuel : Nat) (lines : List Str) (st st2 : State)
    (hrun : mainLoop fuel lines st = some st2)
    (hno : ∀ l ∈ lines, roundTest (trim l) = false)
    (h1 : st.currentRound = none) (h2 : st.rounds = []) :
    st2.currentRound = none ∧ st2.rounds = [] := by
  induction fuel generalizing lines st with
  | zero => simp [mainLoop] at hrun
  | succ fuel ih =>
    cases lines with
    | nil =>
      simp only [mainLoop, Option.some.injEq] at hrun
      subst hrun
      exact ⟨h1, h2⟩
    | cons raw rest =>
      obtain ⟨g, t, e, u, hpl⟩ := processLine_eq (trim raw) st
      simp only [mainLoop, hpl, Option.some_bind] at hrun
      have hstep := lineStep_no_round (trim raw) (withMeta st g t e u)
        (hno raw (List.mem_cons_self raw rest)) h1 h2
      split at hrun
      · refine ih _ _ hrun ?_ hstep.1 hstep.2
        intro l hl
        exact hno l (List.mem_cons_of_mem raw
          (mem_of_mem_collectAnnouncement rest [] l (List.mem_of_mem_drop hl)))
      · exact ih _ _ hrun (fun l hl => hno l (List.mem_cons_of_mem raw hl)) hstep.1 hstep.2

theorem createdAfter_congr (n0 a0 k0 : Nat) (s s2 : State)
    (h1 : s2.phaseHeap = s.phaseHeap) (h2 : s2.actionHeap = s.actionHeap)
    (h3 : s2.rounds = s.rounds) (h4 : s2.currentRound = s.currentRound)
    (h : CreatedAfter n0 a0 k0 s) : CreatedAfter n0 a0 k0 s2 := by
  unfold CreatedAfter at h ⊢
  rw [h1, h2, finalRounds_congr s2 s h3 h4]
  exact h

theorem createdAfter_roundStep (n0 a0 k0 : Nat) (line : Str) (s : State)
    (h : CreatedAfter n0 a0 k0 s) : CreatedAfter n0 a0 k0 (roundStep line s) := by
  obtain ⟨h1, h2, h3, h4⟩ := h
  refine ⟨by simpa using h1, by simpa using h2, ?_, by simpa using h4⟩
  rw [finalRounds_roundStep]
  split
  · intro r hr p hp
    rcases mem_drop_concat _ _ _ _ hr with hr | ⟨hr, _⟩
    · exact h3 r hr p hp
    · subst hr
      simp at hp
  · exact h3

theorem createdAfter_openPhase (n0 a0 k0 : Nat) (t : PhaseType) (s : State)
    (h : CreatedAfter n0 a0 k0 s) : CreatedAfter n0 a0 k0 (openPhase t s) := by
  obtain ⟨h1, h2, h3, h4⟩ := h
  refine ⟨?_, h2, ?_, ?_⟩
  · simp only [openPhase, List.length_append, List.length_singleton]
    omega
  · intro r hr p hp
    cases hc : s.currentRound with
    | none =>
      have hfr : finalRounds (openPhase t s) = finalRounds s := by
        simp [finalRounds, openPhase, hc]
      rw [hfr] at hr
      exact h3 r hr p hp
    | some c =>
      have hfr : finalRounds (openPhase t s) =
          s.rounds ++ [{ c with phases := c.phases ++ [s.phaseHeap.length] }] := by
        simp [finalRounds, openPhase, hc]
      have hfs : finalRounds s = s.rounds ++ [c] := by
        simp [finalRounds, hc]
      rw [hfr] at hr
      rw [hfs] at h3
      rcases mem_drop_concat _ _ _ _ hr with hr | ⟨hr, hk⟩
      · exact h3 r (mem_drop_concat_of_mem _ _ _ _ hr) p hp
      · subst hr
        simp only [List.mem_append, List.mem_singleton] at hp
        rcases hp with hp | hp
        · exact h3 c (mem_drop_concat_of_le _ _ _ hk) p hp
        · omega
  · intro p ph hp hget a ha
    simp only [openPhase] at hget
    by_cases hlt : p < s.phaseHeap.length
    · rw [List.getElem?_append_left hlt] at hget
      exact h4 p ph hp hget a ha
    · have hp2 : p = s.phaseHeap.length ∨ s.phaseHeap.length < p := by omega
      rcases hp2 with hp2 | hp2
      · subst hp2
        rw [List.getElem?_concat_length] at hget
        simp only [Option.some.injEq] at hget
        subst hget
        simp at ha
      · rw [List.getElem?_eq_none (by simp; omega)] at hget
        exact absurd hget (by simp)

theorem createdAfter_parsePhase (n0 a0 k0 : Nat) (line : Str) (s : State)
    (h : CreatedAfter n0 a0 k0 s) : CreatedAfter n0 a0 k0 (parsePhase line s) := by
  unfold parsePhase
  split
  · exact createdAfter_openPhase _ _ _ _ _ h
  · split
    · exact createdAfter_openPhase _ _ _ _ _ h
    · exact h

theorem bounded_pushEntry (n0 a0 : Nat) (heap : List PhaseObj) (cp : Option Nat) (e : Entry)
    (he : ∀ a, e = Entry.action a → a0 ≤ a)
    (h : ∀ p ph, n0 ≤ p → heap[p]? = some ph → ∀ a, Entry.action a ∈ ph.actions → a0 ≤ a) :
    ∀ p ph, n0 ≤ p → (pushEntry cp e heap)[p]? = some ph →
      ∀ a, Entry.action a ∈ ph.actions → a0 ≤ a := by
  intro p ph hp hget a ha
  cases cp with
  | none => exact h p ph hp hget a ha
  | some q =>
    simp only [pushEntry, getElem?_modifyAt] at hget
    split at hget
    · cases hold : heap[p]? with
      | none => simp [hold] at hget
      | some o =>
        simp only [hold, Option.map_some', Option.some.injEq] at hget
        subst hget
        simp only [List.mem_append, List.mem_singleton] at ha
        rcases ha with ha | ha
        · exact h p o hp hold a ha
        · exact he a ha.symm
    · exact h p ph hp hget a ha

theorem createdAfter_parseAction (n0 a0 k0 : Nat) (line : Str) (s : State)
    (h : CreatedAfter n0 a0 k0 s) : CreatedAfter n0 a0 k0 (parseAction line s) := by
  obtain ⟨h1, h2, h3, h4⟩ := h
  unfold parseAction
  split
  · split
    · refine ⟨?_, ?_, h3, ?_⟩
      · simpa [length_pushEntry] using h1
      · simp only [List.length_append, List.length_singleton]
        omega
      · exact bounded_pushEntry n0 a0 _ _ _
          (fun a ha => by
            simp only [Entry.action.injEq] at ha
            omega) h4
    · exact ⟨h1, h2, h3, h4⟩
  · exact ⟨h1, h2, h3, h4⟩

theorem parseFields_actionHeap_length (line : Str) (s : State) :
    (parseFields line s).actionHeap.length = s.actionHeap.length := by
  unfold parseFields
  repeat' split
  all_goals simp only [length_modifyAt]

theorem createdAfter_parseFields (n0 a0 k0 : Nat) (line : Str) (s : State)
    (h : CreatedAfter n0 a0 k0 s) : CreatedAfter n0 a0 k0 (parseFields line s) := by
  obtain ⟨h1, h2, h3, h4⟩ := h
  refine ⟨by simpa using h1, by rw [parseFields_actionHeap_length]; exact h2, ?_,
    by simpa using h4⟩
  rw [finalRounds_congr (parseFields line s) s (by simp) (by simp)]
  exact h3

theorem createdAfter_parseVote (n0 a0 k0 : Nat) (line : Str) (s : State)
    (h : CreatedAfter n0 a0 k0 s) : CreatedAfter n0 a0 k0 (parseVote line s) := by
  obtain ⟨h1, h2, h3, h4⟩ := h
  unfold parseVote
  split
  · split
    · refine ⟨by simpa [length_pushEntry] using h1, h2, h3, ?_⟩
      exact bounded_pushEntry n0 a0 s.phaseHeap (some _) (Entry.event _ _)
        (fun a ha => Entry.noConfusion ha) h4
    · exact ⟨h1, h2, h3, h4⟩
  · exact ⟨h1, h2, h3, h4⟩

theorem createdAfter_parseDeath (n0 a0 k0 : Nat) (line : Str) (s : State)
    (h : CreatedAfter n0 a0 k0 s) : CreatedAfter n0 a0 k0 (parseDeath line s) := by
  obtain ⟨h1, h2, h3, h4⟩ := h
  unfold parseDeath
  split
  · split
    · refine ⟨by simpa [length_pushEntry] using h1, h2, h3, ?_⟩
      exact bounded_pushEntry n0 a0 s.phaseHeap (some _) (Entry.event _ _)
        (fun a ha => Entry.noConfusion ha) h4
    · exact ⟨h1, h2, h3, h4⟩
  · exact ⟨h1, h2, h3, h4⟩

theorem createdAfter_pushSystem (n0 a0 k0 : Nat) (ann : Str) (s : State)
    (h : CreatedAfter n0 a0 k0 s) : CreatedAfter n0 a0 k0 (pushSystem ann s) := by
  obtain ⟨h1, h2, h3, h4⟩ := h
  exact ⟨by simpa [pushSystem, length_pushEntry] using h1, h2, h3,
    bounded_pushEntry n0 a0 _ _ _ (fun a ha => Entry.noConfusion ha) h4⟩

theorem createdAfter_lineStep (n0 a0 k0 : Nat) (line : Str) (s : State)
    (h : CreatedAfter n0 a0 k0 s) : CreatedAfter n0 a0 k0 (lineStep line s) := by
  unfold lineStep
  apply createdAfter_parseDeath
  apply createdAfter_parseVote
  apply createdAfter_parseFields
  apply createdAfter_parseAction
  apply createdAfter_parsePhase
  apply createdAfter_roundStep
  exact createdAfter_congr _ _ _ s _ (by simp) (by simp) (by simp) (by simp) h

theorem createdAfter_mainLoop (n0 a0 k0 fuel : Nat) (lines : List Str) (s s2 : State)
    (hrun : mainLoop fuel lines s = some s2) (h : CreatedAfter n0 a0 k0 s) :
    CreatedAfter n0 a0 k0 s2 := by
  induction fuel generalizing lines s with
  | zero => simp [mainLoop] at hrun
  | succ fuel ih =>
    cases lines with
    | nil =>
      simp only [mainLoop, Option.some.injEq] at hrun
      subst hrun
      exact h
    | cons raw rest =>
      obtain ⟨g, t, e, u, hpl⟩ := processLine_eq (trim raw) s
      simp only [mainLoop, hpl, Option.some_bind] at hrun
      have hstep : CreatedAfter n0 a0 k0 (lineStep (trim raw) (withMeta s g t e u)) :=
        createdAfter_lineStep _ _ _ _ _
          (createdAfter_congr _ _ _ s _ rfl rfl rfl rfl h)
      split at hrun
      · exact ih _ _ hrun (createdAfter_pushSystem _ _ _ _ _ hstep)
      · exact ih _ _ hrun hstep

theorem createdAfter_start (st : State) :
    CreatedAfter st.phaseHeap.length st.actionHeap.length (finalRounds st).length st := by
  refine ⟨Nat.le_refl _, Nat.le_refl _, ?_, ?_⟩
  · intro r hr
    simp at hr
  · intro p ph hp hget
    rw [List.getElem?_eq_none hp] at hget
    exact absurd hget (by simp)

/-- An input with no round-header line yields a document without rounds. -/
theorem parseLogContent_no_header (content : Str)
    (hno : ∀ l ∈ jsSplit content "\n".toList, roundTest (trim l) = false) :
    ∃ g, parseLogContent content = some g ∧ g.rounds = [] := by
  obtain ⟨s, hs⟩ := mainLoop_isSome ((jsSplit content "\n".toList).length + 1)
    (jsSplit content "\n".toList) initState (Nat.lt_succ_self _)
  obtain ⟨h1, h2⟩ := mainLoop_no_round _ _ _ _ hs hno rfl rfl
  refine ⟨toGameLog s, by simp only [parseLogContent, scan, hs, Option.map_some'], ?_⟩
  simp [toGameLog, finalRounds, h1, h2]

theorem mainLoop_fuel (f1 f2 : Nat) (lines : List Str) (st : State)
    (h1 : lines.length < f1) (h2 : lines.length < f2) :
    mainLoop f1 lines st = mainLoop f2 lines st := by
  induction f1 generalizing f2 lines st with
  | zero => omega
  | succ f1 ih =>
    cases f2 with
    | zero => omega
    | succ f2 =>
      cases lines with
      | nil => rfl
      | cons raw rest =>
        simp only [List.length_cons] at h1 h2
        simp only [mainLoop]
        congr 1
        funext st1
        split
        · have := collectAnnouncement_length rest []
          apply ih
          · simp only [List.length_drop]
            omega
          · simp only [List.length_drop]
            omega
        · exact ih _ _ _ (by omega) (by omega)

/-- The loop from the start is the loop from any point that `loopPrefix` reaches, and the
lines still to read there are lines of the input. -/
theorem mainLoop_of_loopPrefix (k fuel : Nat) (lines rest : List Str) (st s : State)
    (hk : loopPrefix k lines st = some (s, rest)) (hfuel : lines.length < fuel) :
    rest.length ≤ lines.length ∧ (∀ l ∈ rest, l ∈ lines) ∧
      mainLoop fuel lines st = mainLoop fuel rest s := by
  induction k generalizing fuel lines st with
  | zero =>
    simp only [loopPrefix, Option.some.injEq, Prod.mk.injEq] at hk
    obtain ⟨h1, h2⟩ := hk
    subst h1 h2
    exact ⟨Nat.le_refl _, fun _ h => h, rfl⟩
  | succ k ih =>
    cases lines with
    | nil =>
      simp only [loopPrefix, Option.some.injEq, Prod.mk.injEq] at hk
      obtain ⟨h1, h2⟩ := hk
      subst h1 h2
      exact ⟨Nat.le_refl _, fun _ h => h, rfl⟩
    | cons raw rest0 =>
      cases fuel with
      | zero => omega
      | succ fuel =>
        obtain ⟨g, t, e, u, hpl⟩ := processLine_eq (trim raw) st
        simp only [loopPrefix, hpl, Option.some_bind] at hk
        simp only [mainLoop, hpl, Option.some_bind]
        simp only [List.length_cons] at hfuel
        have hc := collectAnnouncement_length rest0 []
        split at hk
        · rename_i hsys
          have hlen : ((collectAnnouncement rest0 []).2.drop 1).length < fuel := by
            simp only [List.length_drop]
            omega
          obtain ⟨h1, h2, h3⟩ := ih fuel _ _ hk hlen
          simp only [List.length_drop] at h1
          refine ⟨by simp only [List.length_cons]; omega, ?_, ?_⟩
          · intro l hl
            exact List.mem_cons_of_mem raw
              (mem_of_mem_collectAnnouncement rest0 [] l (List.mem_of_mem_drop (h2 l hl)))
          · rw [if_pos hsys, h3]
            exact mainLoop_fuel _ _ _ _ (by omega) (by omega)
        · rename_i hsys
          obtain ⟨h1, h2, h3⟩ := ih fuel _ _ hk (by omega)
          refine ⟨by simp only [List.length_cons]; omega, ?_, ?_⟩
          · intro l hl
            exact List.mem_cons_of_mem raw (h2 l hl)
          · rw [if_neg hsys, h3]
            exact mainLoop_fuel _ _ _ _ (by omega) (by omega)

theorem lineStep_round_open (line : Str) (st : State)
    (h : st.currentRound = none → st.rounds = []) :
    (lineStep line st).currentRound = none → (lineStep line st).rounds = [] := by
  by_cases hr : roundTest line = true
  · intro hc
    exfalso
    revert hc
    unfold lineStep
    simp only [parseDeath_currentRound, parseVote_currentRound, parseFields_currentRound,
      parseAction_currentRound]
    have hrs : (roundStep line (parsePlayers line st)).currentRound ≠ none := by
      simp [roundStep, hr]
    unfold parsePhase
    split
    · cases hcr : (roundStep line (parsePlayers line st)).currentRound with
      | none => exact absurd hcr hrs
      | some r => simp [openPhase, hcr]
    · split
      · cases hcr : (roundStep line (parsePlayers line st)).currentRound with
        | none => exact absurd hcr hrs
        | some r => simp [openPhase, hcr]
      · exact hrs
  · intro hc
    have hr2 : roundTest line = false := by simpa using hr
    have hst : st.currentRound = none := by
      revert hc
      unfold lineStep
      simp only [parseDeath_currentRound, parseVote_currentRound, parseFields_currentRound,
        parseAction_currentRound, roundStep_of_not_roundTest _ _ hr2]
      unfold parsePhase
      split
      · cases hcr : st.currentRound with
        | none => intro _; rfl
        | some r => simp [openPhase, hcr]
      · split
        · cases hcr : st.currentRound with
          | none => intro _; rfl
          | some r => simp [openPhase, hcr]
        · simp
    exact (lineStep_no_round line st hr2 hst (h hst)).2

theorem loopPrefix_round_open (k : Nat) (lines rest : List Str) (st s : State)
    (hk : loopPrefix k lines st = some (s, rest))
    (h : st.currentRound = none → st.rounds = []) :
    s.currentRound = none → s.rounds = [] := by
  induction k generalizing lines st with
  | zero =>
    simp only [loopPrefix, Option.some.injEq, Prod.mk.injEq] at hk
    rw [← hk.1]
    exact h
  | succ k ih =>
    cases lines with
    | nil =>
      simp only [loopPrefix, Option.some.injEq, Prod.mk.injEq] at hk
      rw [← hk.1]
      exact h
    | cons raw rest0 =>
      obtain ⟨g, t, e, u, hpl⟩ := processLine_eq (trim raw) st
      simp only [loopPrefix, hpl, Option.some_bind] at hk
      have hstep := lineStep_round_open (trim raw) (withMeta st g t e u) h
      split at hk
      · exact ih _ _ hk hstep
      · exact ih _ _ hk hstep

/-- The ownership invariant and the absence of rounds, from any state of the scan. -/
theorem mainLoop_created_after (fuel : Nat) (lines : List Str) (st st2 : State)
    (hrun : mainLoop fuel lines st = some st2) :
    (∀ r ∈ (finalRounds st2).drop (finalRounds st).length, ∀ p ∈ r.phases,
      st.phaseHeap.length ≤ p ∧
      ∀ ph, st2.phaseHeap[p]? = some ph →
        ∀ a, Entry.action a ∈ ph.actions → st.actionHeap.length ≤ a) ∧
    (st.currentRound = none → st.rounds = [] →
      (∀ l ∈ lines, roundTest (trim l) = false) → (toGameLog st2).rounds = []) := by
  obtain ⟨_, _, h3, h4⟩ := createdAfter_mainLoop _ _ _ fuel lines st st2 hrun
    (createdAfter_start st)
  refine ⟨?_, ?_⟩
  · intro r hr p hp
    exact ⟨h3 r hr p hp, fun ph hget a ha => h4 p ph (h3 r hr p hp) hget a ha⟩
  · intro hc hr hno
    obtain ⟨h1, h2⟩ := mainLoop_no_round fuel lines st st2 hrun hno hc hr
    simp [toGameLog, finalRounds, h1, h2]

/-! ## The model on concrete lines -/

theorem playerMatch_sample :
    playerMatch "- Player12: were-wolf".toList = some ("Player12".toList, "were".toList) ∧
    playerMatch "- Player: seer".toList = none := by decide

theorem actionMatch_sample :
    timeMatch "[12:00:01] 狼人 频道 | Player1 | x".toList = some "12:00:01".toList ∧
    actionMatch "[12:00:01] 狼人 频道 | Player1 | x".toList =
      some ("狼人 频道".toList, "Player1 | x".toList) ∧
    actionMatch "[12:00:01] 狼人频道 |Player1".toList = none := by decide

theorem voteMatch_sample :
    voteTest "📊 白天投票结果 Player1 出局".toList = true ∧
    voteMatch "📊 白天投票结果 Player1 出局".toList = some "白天投票结果 Player1 出局".toList ∧
    voteMatch "📊 白天投票结果".toList = none := by decide

theorem deathMatch_sample :
    deathMatch "💀 夜晚死亡 Player1, Player2".toList =
      some ("夜晚死亡".toList, "Player1, Player2".toList) ∧
    deathNames "💀 白天死亡 Player1 , Player2".toList = ["Player1".toList, "Player2".toList] ∧
    deathMatch "💀 夜晚死亡".toList = none := by decide

theorem jsSplit_sample :
    jsSplit "游戏ID: G1: x".toList ":".toList = ["游戏ID".toList, " G1".toList, " x".toList] ∧
    jsSplit "a\n\nb\n".toList "\n".toList = ["a".toList, [], "b".toList, []] ∧
    trim "\t 第 1 回合 \r".toList = "第 1 回合".toList := by decide

/-- The end-to-end scenario: a game id, a roster of two, one round, a night phase, one
werewolf-channel action with a one-line thought, and a death marker that kills `Player1`. -/
theorem end_to_end_scenario :
    parseLogContent ("游戏ID: G1\n- Player1: werewolf\n- Player2: villager\n第 1 回合\n" ++
        "【夜晚阶段】\n[23:10:05] 狼人频道 | Player1\n(心声) kill Player2\n" ++
        "💀 夜晚死亡 Player1").toList =
      some
        { gameId := "G1".toList, startTime := [], endTime := [], status := "进行中".toList,
          players := [{ name := "Player1".toList, role := "werewolf".toList, alive := false },
                      { name := "Player2".toList, role := "villager".toList, alive := true }],
          rounds := [{ number := .int 1, phases := [{ type := .night, actions := [
            .normal { time := "23:10:05".toList, type := "狼人频道".toList,
                      player := "Player1".toList, thought := "kill Player2".toList,
                      behavior := [], speech := [], details := [] },
            .event .death "夜晚死亡: Player1".toList] }] }] } := by rfl

/-! ## The death marker and the roster, stated -/

/-- C9: a death marker never creates or renames players.  For every line and state, the
players after block "解析死亡公告" are as many as before, each keeps its name and role, and
`alive` changes only from `true` to `false` and only for a player whose name is a trimmed
entry of the marker's comma-separated list; when no listed name is in the roster the players
are left as they were; and the whole loop body does the same to the players on every line
that is not also a roster line. -/
theorem death_marker_keeps_roster (line : Str) (st : State) :
    (parseDeath line st).players.length = st.players.length ∧
    List.Forall₂ (DeathStep (deathNames line)) st.players (parseDeath line st).players ∧
    ((∀ n ∈ deathNames line, n ∉ st.players.map Player.name) →
      (parseDeath line st).players = st.players) ∧
    (startsWith line "- Player".toList = false →
      List.Forall₂ (DeathStep (deathNames line)) st.players (lineStep line st).players) := by
  have key := parseDeath_deathStep line st
  refine ⟨(List.Forall₂.length_eq key.1).symm, key.1, key.2, ?_⟩
  intro hro
  rw [lineStep_players, parsePlayers_of_not_roster _ _ hro]
  split
  · exact deathStep_foldl _ _ (fun _ h => h) _
  · exact deathStep_refl _ _

/-- C9, witness: in `nightState` a death marker that lists only a name missing from the
roster leaves the players as they were, and the marker line is no roster line. -/
theorem death_marker_keeps_roster_witness :
    ((∀ n ∈ deathNames "💀 夜晚死亡 Ghost".toList, n ∉ nightState.players.map Player.name) ∧
      (parseDeath "💀 夜晚死亡 Ghost".toList nightState).players = nightState.players) ∧
    (startsWith "💀 夜晚死亡 Player1".toList "- Player".toList = false ∧
      List.Forall₂ (DeathStep (deathNames "💀 夜晚死亡 Player1".toList)) nightState.players
        (lineStep "💀 夜晚死亡 Player1".toList nightState).players) :=
  ⟨⟨by decide,
      (death_marker_keeps_roster "💀 夜晚死亡 Ghost".toList nightState).2.2.1 (by decide)⟩,
    ⟨by decide,
      (death_marker_keeps_roster "💀 夜晚死亡 Player1".toList nightState).2.2.2 (by decide)⟩⟩

/-! ## The document does not depend on earlier heap objects -/

theorem parseFields_actionHeap_eq (line : Str) (s : State) :
    (parseFields line s).actionHeap =
      match s.currentAction with
      | none => s.actionHeap
      | some a => modifyAt (fieldUpdate line s.currentLogState).1 s.actionHeap a := by
  unfold parseFields fieldUpdate
  cases s.currentAction with
  | none => rfl
  | some a =>
    simp only
    repeat' split
    all_goals first | rfl | exact (modifyAt_id _ _).symm

theorem parseFields_currentLogState_eq (line : Str) (s : State) :
    (parseFields line s).currentLogState =
      match s.currentAction with
      | none => s.currentLogState
      | some _ => (fieldUpdate line s.currentLogState).2 := by
  unfold parseFields fieldUpdate
  cases s.currentAction with
  | none => rfl
  | some a =>
    simp only
    repeat' split
    all_goals rfl

theorem agree_modifyAt {α : Type} (f : α → α) (l l2 : List α) (n k : Nat)
    (h : ∀ i, n ≤ i → l2[i]? = l[i]?) :
    ∀ i, n ≤ i → (modifyAt f l2 k)[i]? = (modifyAt f l k)[i]? := by
  intro i hi
  simp only [getElem?_modifyAt, h i hi]

theorem agree_concat {α : Type} (x : α) (l l2 : List α) (n : Nat)
    (hlen : l2.length = l.length) (h : ∀ i, n ≤ i → l2[i]? = l[i]?) :
    ∀ i, n ≤ i → (l2 ++ [x])[i]? = (l ++ [x])[i]? := by
  intro i hi
  by_cases hlt : i < l.length
  · rw [List.getElem?_append_left hlt, List.getElem?_append_left (by omega)]
    exact h i hi
  · rw [List.getElem?_append_right (by omega), List.getElem?_append_right (by omega), hlen]

theorem agree_pushEntry (cp : Option Nat) (e : Entry) (l l2 : List PhaseObj) (n : Nat)
    (h : ∀ i, n ≤ i → l2[i]? = l[i]?) :
    ∀ i, n ≤ i → (pushEntry cp e l2)[i]? = (pushEntry cp e l)[i]? := by
  cases cp with
  | none => exact h
  | some p => exact agree_modifyAt _ _ _ _ _ h

theorem agree_congr (n0 a0 : Nat) (s s2 t t2 : State)
    (h : AgreeFrom n0 a0 s s2)
    (e1 : t.rounds = s.rounds) (e2 : t.currentRound = s.currentRound)
    (e3 : t.currentPhase = s.currentPhase) (e4 : t.currentAction = s.currentAction)
    (e5 : t.currentLogState = s.currentLogState) (e6 : t.phaseHeap = s.phaseHeap)
    (e7 : t.actionHeap = s.actionHeap)
    (f1 : t2.rounds = s2.rounds) (f2 : t2.currentRound = s2.currentRound)
    (f3 : t2.currentPhase = s2.currentPhase) (f4 : t2.currentAction = s2.currentAction)
    (f5 : t2.currentLogState = s2.currentLogState) (f6 : t2.phaseHeap = s2.phaseHeap)
    (f7 : t2.actionHeap = s2.actionHeap) : AgreeFrom n0 a0 t t2 := by
  unfold AgreeFrom at h ⊢
  rw [e1, e2, e3, e4, e5, e6, e7, f1, f2, f3, f4, f5, f6, f7]
  exact h

theorem agree_roundStep (n0 a0 : Nat) (line : Str) (s s2 : State) (h : AgreeFrom n0 a0 s s2) :
    AgreeFrom n0 a0 (roundStep line s) (roundStep line s2) := by
  obtain ⟨h1, h2, h3, h4, h5, h6, h7, h8, h9⟩ := h
  unfold roundStep
  split
  · exact ⟨by simp only [finalRounds, h1, h2], rfl, rfl, h4, h5, h6, h7, h8, h9⟩
  · exact ⟨h1, h2, h3, h4, h5, h6, h7, h8, h9⟩

theorem agree_openPhase (n0 a0 : Nat) (t : PhaseType) (s s2 : State)
    (h : AgreeFrom n0 a0 s s2) : AgreeFrom n0 a0 (openPhase t s) (openPhase t s2) := by
  obtain ⟨h1, h2, h3, h4, h5, h6, h7, h8, h9⟩ := h
  unfold openPhase
  refine ⟨h1, ?_, ?_, h4, h5, ?_, h7, ?_, h9⟩
  · simp only [h2, h6]
  · simp only [h6]
  · simp only [List.length_append, h6]
  · exact agree_concat _ _ _ _ h6 h8

theorem agree_parsePhase (n0 a0 : Nat) (line : Str) (s s2 : State) (h : AgreeFrom n0 a0 s s2) :
    AgreeFrom n0 a0 (parsePhase line s) (parsePhase line s2) := by
  unfold parsePhase
  split
  · exact agree_openPhase _ _ _ _ _ h
  · split
    · exact agree_openPhase _ _ _ _ _ h
    · exact h

theorem agree_parseAction (n0 a0 : Nat) (line : Str) (s s2 : State)
    (h : AgreeFrom n0 a0 s s2) :
    AgreeFrom n0 a0 (parseAction line s) (parseAction line s2) := by
  obtain ⟨h1, h2, h3, h4, h5, h6, h7, h8, h9⟩ := h
  unfold parseAction
  split
  · split
    · refine ⟨h1, h2, h3, ?_, h5, ?_, ?_, ?_, ?_⟩
      · simp only [h7]
      · simp only [length_pushEntry, h6]
      · simp only [List.length_append, h7]
      · simp only [h3, h7]
        exact agree_pushEntry _ _ _ _ _ h8
      · exact agree_concat _ _ _ _ h7 h9
    · exact ⟨h1, h2, h3, h4, h5, h6, h7, h8, h9⟩
  · exact ⟨h1, h2, h3, h4, h5, h6, h7, h8, h9⟩

theorem agree_parseFields (n0 a0 : Nat) (line : Str) (s s2 : State)
    (h : AgreeFrom n0 a0 s s2) :
    AgreeFrom n0 a0 (parseFields line s) (parseFields line s2) := by
  obtain ⟨h1, h2, h3, h4, h5, h6, h7, h8, h9⟩ := h
  refine ⟨by simpa using h1, by simpa using h2, by simpa using h3, by simpa using h4, ?_,
    by simpa using h6, ?_, by simpa using h8, ?_⟩
  · rw [parseFields_currentLogState_eq, parseFields_currentLogState_eq, h4, h5]
  · rw [parseFields_actionHeap_length, parseFields_actionHeap_length]
    exact h7
  · rw [parseFields_actionHeap_eq, parseFields_actionHeap_eq, h4, h5]
    cases s.currentAction with
    | none => exact h9
    | some a => exact agree_modifyAt _ _ _ _ _ h9

theorem agree_parseVote (n0 a0 : Nat) (line : Str) (s s2 : State) (h : AgreeFrom n0 a0 s s2) :
    AgreeFrom n0 a0 (parseVote line s) (parseVote line s2) := by
  obtain ⟨h1, h2, h3, h4, h5, h6, h7, h8, h9⟩ := h
  unfold parseVote
  rw [h3]
  split
  · split
    · refine ⟨h1, h2, rfl, h4, h5, ?_, h7, ?_, h9⟩
      · simp only [length_pushEntry, h6]
      · exact agree_pushEntry (some _) (Entry.event _ _) s.phaseHeap s2.phaseHeap n0 h8
    · exact ⟨h1, h2, h3, h4, h5, h6, h7, h8, h9⟩
  · exact ⟨h1, h2, h3, h4, h5, h6, h7, h8, h9⟩

theorem agree_parseDeath (n0 a0 : Nat) (line : Str) (s s2 : State) (h : AgreeFrom n0 a0 s s2) :
    AgreeFrom n0 a0 (parseDeath line s) (parseDeath line s2) := by
  obtain ⟨h1, h2, h3, h4, h5, h6, h7, h8, h9⟩ := h
  unfold parseDeath
  rw [h3]
  split
  · split
    · refine ⟨h1, h2, rfl, h4, h5, ?_, h7, ?_, h9⟩
      · simp only [length_pushEntry, h6]
      · exact agree_pushEntry (some _) (Entry.event _ _) s.phaseHeap s2.phaseHeap n0 h8
    · exact ⟨h1, h2, h3, h4, h5, h6, h7, h8, h9⟩
  · exact ⟨h1, h2, h3, h4, h5, h6, h7, h8, h9⟩

theorem agree_pushSystem (n0 a0 : Nat) (ann : Str) (s s2 : State) (h : AgreeFrom n0 a0 s s2) :
    AgreeFrom n0 a0 (pushSystem ann s) (pushSystem ann s2) := by
  obtain ⟨h1, h2, h3, h4, h5, h6, h7, h8, h9⟩ := h
  unfold pushSystem
  refine ⟨h1, h2, h3, h4, h5, ?_, h7, ?_, h9⟩
  · simp only [length_pushEntry, h6]
  · simp only [h3]
    exact agree_pushEntry _ _ _ _ _ h8

theorem agree_lineStep (n0 a0 : Nat) (line : Str) (s s2 : State) (h : AgreeFrom n0 a0 s s2) :
    AgreeFrom n0 a0 (lineStep line s) (lineStep line s2) := by
  unfold lineStep
  apply agree_parseDeath
  apply agree_parseVote
  apply agree_parseFields
  apply agree_parseAction
  apply agree_parsePhase
  apply agree_roundStep
  exact agree_congr _ _ s s2 _ _ h (by simp) (by simp) (by simp) (by simp) (by simp) (by simp)
    (by simp) (by simp) (by simp) (by simp) (by simp) (by simp) (by simp) (by simp)

theorem agree_mainLoop (n0 a0 fuel : Nat) (lines : List Str) (s s2 t t2 : State)
    (h : AgreeFrom n0 a0 s s2) (hrun : mainLoop fuel lines s = some t)
    (hrun2 : mainLoop fuel lines s2 = some t2) : AgreeFrom n0 a0 t t2 := by
  induction fuel generalizing lines s s2 with
  | zero => simp [mainLoop] at hrun
  | succ fuel ih =>
    cases lines with
    | nil =>
      simp only [mainLoop, Option.some.injEq] at hrun hrun2
      subst hrun hrun2
      exact h
    | cons raw rest =>
      obtain ⟨g, u, e, v, hpl⟩ := processLine_eq (trim raw) s
      obtain ⟨g2, u2, e2, v2, hpl2⟩ := processLine_eq (trim raw) s2
      simp only [mainLoop, hpl, Option.some_bind] at hrun
      simp only [mainLoop, hpl2, Option.some_bind] at hrun2
      have hstep : AgreeFrom n0 a0 (lineStep (trim raw) (withMeta s g u e v))
          (lineStep (trim raw) (withMeta s2 g2 u2 e2 v2)) :=
        agree_lineStep _ _ _ _ _
          (agree_congr _ _ s s2 _ _ h rfl rfl rfl rfl rfl rfl rfl rfl rfl rfl rfl rfl rfl rfl)
      split at hrun
      · rename_i hsys
        rw [if_pos hsys] at hrun2
        exact ih _ _ _ (agree_pushSystem _ _ _ _ _ hstep) hrun hrun2
      · rename_i hsys
        rw [if_neg hsys] at hrun2
        exact ih _ _ _ hstep hrun hrun2

theorem agree_start (st : State) (H : List PhaseObj) (A : List Action)
    (hH : H.length = st.phaseHeap.length) (hA : A.length = st.actionHeap.length) :
    AgreeFrom st.phaseHeap.length st.actionHeap.length st
      { st with phaseHeap := H, actionHeap := A } := by
  refine ⟨rfl, rfl, rfl, rfl, rfl, hH, hA, ?_, ?_⟩
  · intro i hi
    show H[i]? = st.phaseHeap[i]?
    rw [List.getElem?_eq_none hi, List.getElem?_eq_none (by omega)]
  · intro j hj
    show A[j]? = st.actionHeap[j]?
    rw [List.getElem?_eq_none hj, List.getElem?_eq_none (by omega)]

/-- Two final states that agree from a point on yield the same rounds beyond those the
document had at that point. -/
theorem rounds_drop_agree (n0 a0 k0 : Nat) (s s2 : State) (h : AgreeFrom n0 a0 s s2)
    (hc : CreatedAfter n0 a0 k0 s) :
    (toGameLog s2).rounds.drop k0 = (toGameLog s).rounds.drop k0 := by
  obtain ⟨h1, h2, _, _, _, _, _, h8, h9⟩ := h
  obtain ⟨_, _, c3, c4⟩ := hc
  simp only [toGameLog, ← List.map_drop, finalRounds_congr s2 s h1 h2]
  apply List.map_congr_left
  intro r hr
  simp only [resolveRound, Round.mk.injEq, true_and]
  apply List.filterMap_congr
  intro p hp
  have hp0 : n0 ≤ p := c3 r hr p hp
  rw [h8 p hp0]
  cases hget : s.phaseHeap[p]? with
  | none => rfl
  | some o =>
    simp only [Option.map_some', Option.some.injEq, Phase.mk.injEq, true_and]
    unfold resolveEntries
    apply List.filterMap_congr
    intro e he
    cases e with
    | event t d => rfl
    | action a =>
      simp only
      rw [h9 a (c4 p o hp0 hget a he)]

/-! ## The number of phases of the document -/

theorem sum_drop_concat {α : Type} (f : α → Nat) (l : List α) (x : α) (k : Nat) :
    (((l ++ [x]).drop k).map f).sum =
      ((l.drop k).map f).sum + (if k ≤ l.length then f x else 0) := by
  rw [List.drop_append_eq_append_drop, List.map_append, List.sum_append]
  congr 1
  by_cases hk : k ≤ l.length
  · have h0 : k - l.length = 0 := by omega
    simp [h0, hk]
  · have h1 : k - l.length = (k - l.length - 1) + 1 := by omega
    rw [h1]
    simp [hk]

theorem phaseCount_congr (k0 : Nat) (s s2 : State) (h1 : s2.rounds = s.rounds)
    (h2 : s2.currentRound = s.currentRound) : phaseCount k0 s2 = phaseCount k0 s := by
  unfold phaseCount
  rw [finalRounds_congr s2 s h1 h2]

theorem phaseCount_openPhase (k0 : Nat) (t : PhaseType) (s : State) :
    phaseCount k0 (openPhase t s) ≤ phaseCount k0 s + 1 := by
  unfold phaseCount
  cases hc : s.currentRound with
  | none =>
    have hfr : finalRounds (openPhase t s) = finalRounds s := by
      simp [finalRounds, openPhase, hc]
    rw [hfr]
    omega
  | some c =>
    have hfr : finalRounds (openPhase t s) =
        s.rounds ++ [{ c with phases := c.phases ++ [s.phaseHeap.length] }] := by
      simp [finalRounds, openPhase, hc]
    have hfs : finalRounds s = s.rounds ++ [c] := by
      simp [finalRounds, hc]
    rw [hfr, hfs, sum_drop_concat, sum_drop_concat]
    split
    · simp only [List.length_append, List.length_singleton]
      omega
    · omega

theorem phaseCount_lineStep (k0 : Nat) (line : Str) (s : State) :
    phaseCount k0 (lineStep line s) ≤ phaseCount k0 s + (if phaseMarker line then 1 else 0) := by
  by_cases hm : phaseMarker line = true
  · have hr : roundTest line = false := not_roundTest_of_phaseMarker line hm
    have h1 : phaseCount k0 (lineStep line s) =
        phaseCount k0 (parsePhase line (roundStep line (parsePlayers line s))) := by
      unfold lineStep
      exact phaseCount_congr _ _ _ (by simp) (by simp)
    rw [h1, roundStep_of_not_roundTest _ _ hr, if_pos hm]
    have h2 : phaseCount k0 (parsePlayers line s) = phaseCount k0 s :=
      phaseCount_congr _ _ _ (by simp) (by simp)
    rw [← h2]
    unfold parsePhase
    split
    · exact phaseCount_openPhase _ _ _
    · split
      · exact phaseCount_openPhase _ _ _
      · omega
  · have hm2 : phaseMarker line = false := by simpa using hm
    rw [if_neg hm]
    unfold phaseCount
    rw [finalRounds_lineStep_of_not_marker _ _ hm2]
    cases headerNumber line with
    | none => simp
    | some n =>
      simp only [Option.toList, List.map_cons, List.map_nil, sum_drop_concat, List.length_nil]
      split <;> omega

theorem collectAnnouncement_sublist (ls : List Str) (acc : Str) :
    (collectAnnouncement ls acc).2.Sublist ls := by
  induction ls generalizing acc with
  | nil => simp [collectAnnouncement]
  | cons x xs ih =>
    simp only [collectAnnouncement]
    split
    · exact List.Sublist.cons x (ih _)
    · exact List.Sublist.refl _

theorem phaseCount_mainLoop (k0 fuel : Nat) (lines : List Str) (s s2 : State)
    (hrun : mainLoop fuel lines s = some s2) :
    phaseCount k0 s2 ≤ phaseCount k0 s + lines.countP (fun l => phaseMarker (trim l)) := by
  induction fuel generalizing lines s with
  | zero => simp [mainLoop] at hrun
  | succ fuel ih =>
    cases lines with
    | nil =>
      simp only [mainLoop, Option.some.injEq] at hrun
      subst hrun
      simp
    | cons raw rest =>
      obtain ⟨g, t, e, u, hpl⟩ := processLine_eq (trim raw) s
      simp only [mainLoop, hpl, Option.some_bind] at hrun
      have hstep := phaseCount_lineStep k0 (trim raw) (withMeta s g t e u)
      have hmeta : phaseCount k0 (withMeta s g t e u) = phaseCount k0 s := rfl
      rw [hmeta] at hstep
      rw [List.countP_cons]
      have hbeta : (if (fun l => phaseMarker (trim l)) raw = true then 1 else 0) =
          (if phaseMarker (trim raw) = true then 1 else 0) := rfl
      rw [hbeta]
      generalize (if phaseMarker (trim raw) = true then 1 else 0) = c at hstep ⊢
      split at hrun
      · have h1 := ih _ _ hrun
        have h2 : phaseCount k0 (pushSystem (collectAnnouncement rest []).1
            (lineStep (trim raw) (withMeta s g t e u))) =
            phaseCount k0 (lineStep (trim raw) (withMeta s g t e u)) :=
          phaseCount_congr _ _ _ rfl rfl
        rw [h2] at h1
        have h3 : List.countP (fun l => phaseMarker (trim l))
            ((collectAnnouncement rest []).2.drop 1) ≤
            List.countP (fun l => phaseMarker (trim l)) rest :=
          List.Sublist.countP_le _
            (List.Sublist.trans (List.drop_sublist 1 _) (collectAnnouncement_sublist rest []))
        omega
      · have h1 := ih _ _ hrun
        omega

theorem toGameLog_phaseCount (k0 : Nat) (s : State) :
    (((toGameLog s).rounds.drop k0).map fun r => r.phases.length).sum ≤ phaseCount k0 s := by
  unfold phaseCount
  simp only [toGameLog, ← List.map_drop, List.map_map]
  apply List.sum_le_sum
  intro r _
  simp only [Function.comp, resolveRound]
  exact List.length_filterMap_le _ _

/-! ## Dangling phase markers, stated -/

theorem phaseCount_start (st : State) : phaseCount (finalRounds st).length st = 0 := by
  simp [phaseCount]

/-- C10: dangling phase markers are dropped.  For every input the scan ends, and an input
without a round-header line yields an empty list of rounds.  With `st` the state at any
point of the scan (after any number of passes of the line loop), `rest` the lines still to
read and `st2` the state at the end: (1) every round added to the document after that point
owns only phase objects created after that point, and those phases hold only normal actions
created after it; (2) when no round is open at that point and no line of `rest` is a round
header, the returned document has no rounds; (3) the rounds that the returned document has
beyond those present at that point do not depend on what the phase and action objects
existing at that point hold, events included: with any other content in them the scan of
`rest` returns the same rounds; (4) those rounds have together at most as many phases as
`rest` has phase-marker lines.  So a phase is owned by a round only if its marker was read
after the header of that round, and a phase opened while no round was open never reaches the
document, nor do the actions and events pushed on it. -/
theorem dangling_phases_dropped (content : Str) :
    ∃ st2, scan content = some st2 ∧ parseLogContent content = some (toGameLog st2) ∧
      ((∀ l ∈ jsSplit content "\n".toList, roundTest (trim l) = false) →
        (toGameLog st2).rounds = []) ∧
      ∀ k st rest, loopPrefix k (jsSplit content "\n".toList) initState = some (st, rest) →
        (∀ r ∈ (finalRounds st2).drop (finalRounds st).length, ∀ p ∈ r.phases,
          st.phaseHeap.length ≤ p ∧
          ∀ ph, st2.phaseHeap[p]? = some ph →
            ∀ a, Entry.action a ∈ ph.actions → st.actionHeap.length ≤ a) ∧
        (st.currentRound = none → (∀ l ∈ rest, roundTest (trim l) = false) →
          (toGameLog st2).rounds = []) ∧
        (∀ (H : List PhaseObj) (A : List Action),
          H.length = st.phaseHeap.length → A.length = st.actionHeap.length →
          ∃ st3, mainLoop (rest.length + 1) rest { st with phaseHeap := H, actionHeap := A } =
              some st3 ∧
            (toGameLog st3).rounds.drop (finalRounds st).length =
              (toGameLog st2).rounds.drop (finalRounds st).length) ∧
        (((toGameLog st2).rounds.drop (finalRounds st).length).map
            fun r => r.phases.length).sum ≤
          rest.countP (fun l => phaseMarker (trim l)) := by
  obtain ⟨st2, hrun⟩ := mainLoop_isSome ((jsSplit content "\n".toList).length + 1)
    (jsSplit content "\n".toList) initState (Nat.lt_succ_self _)
  refine ⟨st2, hrun, by simp only [parseLogContent, scan, hrun, Option.map_some'], ?_, ?_⟩
  · intro hno
    exact (mainLoop_created_after _ _ _ _ hrun).2 rfl rfl hno
  · intro k st rest hk
    obtain ⟨hlen, _, h3⟩ :=
      mainLoop_of_loopPrefix k _ _ rest initState st hk (Nat.lt_succ_self _)
    rw [h3] at hrun
    obtain ⟨hA, hB⟩ := mainLoop_created_after _ _ _ _ hrun
    have hcreated := createdAfter_mainLoop _ _ _ _ rest st st2 hrun (createdAfter_start st)
    refine ⟨hA, fun hc hno => hB hc ?_ hno, ?_, ?_⟩
    · exact loopPrefix_round_open k _ rest initState st hk (fun _ => rfl) hc
    · intro H A hH hA2
      obtain ⟨st3, hrun3⟩ := mainLoop_isSome (rest.length + 1) rest
        { st with phaseHeap := H, actionHeap := A } (Nat.lt_succ_self _)
      refine ⟨st3, hrun3, ?_⟩
      have hrun2 : mainLoop (rest.length + 1) rest st = some st2 := by
        rw [← hrun]
        exact mainLoop_fuel _ _ _ _ (Nat.lt_succ_self _) (by omega)
      exact rounds_drop_agree _ _ _ st2 st3
        (agree_mainLoop _ _ _ rest st _ st2 st3 (agree_start st H A hH hA2) hrun2 hrun3)
        hcreated
    · have h1 := toGameLog_phaseCount (finalRounds st).length st2
      have h2 := phaseCount_mainLoop (finalRounds st).length _ rest st st2 hrun
      rw [phaseCount_start] at h2
      omega

/-- C10, witness: a phase marker, an action header and a death marker come before the first
round header; after three passes the scan is in `danglingState`.  The returned document has
the one round of the header, with the one phase opened after it, which holds the vote result
read after it and nothing of what the dangling phase holds; the same rounds come out when
the dangling phase and action are replaced by others; and the one phase is within the count
of the phase markers still to read. -/
theorem dangling_phases_dropped_witness :
    ∃ st2, scan ("【夜晚阶段】\n[12:00:00] 狼人频道 | Player1\n💀 夜晚死亡 Ghost\n" ++
        "第 1 回合\n【白天阶段】\n📊 白天投票结果 Player1 出局").toList = some st2 ∧
      loopPrefix 3
        (jsSplit ("【夜晚阶段】\n[12:00:00] 狼人频道 | Player1\n💀 夜晚死亡 Ghost\n" ++
          "第 1 回合\n【白天阶段】\n📊 白天投票结果 Player1 出局").toList "\n".toList) initState =
        some (danglingState,
          ["第 1 回合".toList, "【白天阶段】".toList, "📊 白天投票结果 Player1 出局".toList]) ∧
      (toGameLog st2).rounds =
        [{ number := .int 1, phases := [{ type := .day, actions := [
            .event .vote_result "白天投票结果 Player1 出局".toList] }] }] ∧
      (∃ st3, mainLoop 4
          ["第 1 回合".toList, "【白天阶段】".toList, "📊 白天投票结果 Player1 出局".toList]
          { danglingState with phaseHeap := [{ type := .day, actions := [] }],
                               actionHeap := [newAction [] [] []] } = some st3 ∧
        (toGameLog st3).rounds.drop 0 = (toGameLog st2).rounds.drop 0) ∧
      (((toGameLog st2).rounds.drop 0).map fun r => r.phases.length).sum ≤ 1 :=
  (dangling_phases_dropped
      ("【夜晚阶段】\n[12:00:00] 狼人频道 | Player1\n💀 夜晚死亡 Ghost\n" ++
        "第 1 回合\n【白天阶段】\n📊 白天投票结果 Player1 出局").toList).elim
    fun st2 h =>
      ⟨st2, h.1, by rfl,
        Option.some.inj ((congrArg (Option.map fun s => (toGameLog s).rounds) h.1).symm.trans
          (by rfl)),
        (h.2.2.2 3 danglingState
          ["第 1 回合".toList, "【白天阶段】".toList, "📊 白天投票结果 Player1 出局".toList]
          (by rfl)).2.2.1 [{ type := .day, actions := [] }] [newAction [] [] []] rfl rfl,
        (h.2.2.2 3 danglingState
          ["第 1 回合".toList, "【白天阶段】".toList, "📊 白天投票结果 Player1 出局".toList]
          (by rfl)).2.2.2⟩

end WolfMind
